import Mathlib

/-!
Verification of the mixed-radix positional number core (`histropy/units/radices.py`).

The Python module is embedded shallowly:

* Python `int` becomes `Int`, Python `float` becomes `Rat` (exact real
  arithmetic; the IEEE rounding of the host runtime is idealised away).
* Fallible constructors and operations return `Except PyErr _`; a raised
  Python exception corresponds to `Except.error`.
* The two unbounded `while` loops of the source (the integer-size growth in
  `from_float` and the final carry loop of `__mul__`) are written with an
  explicit fuel argument; the fuel supplied at each call site is sufficient
  whenever every radix is at least 2, which is exactly the situation in which
  the Python loops terminate.
-/

attribute [local semireducible] Rat.add Rat.mul Rat.inv Rat.sub Rat.ofScientific

deriving instance DecidableEq for Except

namespace Kanon

/-- Errors raised by the units module.  The `errors.py` module itself is not
under `src/`; these constructors mirror the exception names imported and
raised by `radices.py` (`ValueError` and `IndexError` are Python builtins). -/
inductive PyErr where
  | emptyString
  | tooManySeps
  | illegalBaseValue
  | illegalFloatValue
  | typeMismatch
  | valueError
  | indexError
  | notImplemented
  | attributeError
deriving DecidableEq

/-- Modelled from the spec: `LoopingList` indexing (module
`histropy/utils/looping_list.py` is not under `src/`).  Per spec section 4.1,
`s[i]` for `i ≥ 0` returns element `i mod n` and negative indices wrap
identically (`s[-1] == s[n-1]`), i.e. every index is read modulo the length. -/
def loopGet (l : List α) (d : α) (i : Int) : α :=
  if l.length = 0 then d
  else l.getD (i.emod l.length).toNat d

/-- `RadixBase`: a numeral system with one radix per integer position (`left`,
counted from the radix point outward) and one per fractional position
(`right`). -/
structure RadixBase where
  left : List Nat
  right : List Nat
  name : String
  integerSeparators : List String
deriving DecidableEq

/-- `RadixBase.__init__`: records the radix lists, the name and the display
separators (defaulting to `","` except at radix-10 positions).  The source
performs no validation of the radices whatsoever; the registry dictionary and
the dynamically minted value class carry no arithmetic content and are not
modelled beyond the returned base. -/
def radixBaseInit (left right : List Nat) (name : String)
    (integerSeparators : Option (List String)) : Except PyErr RadixBase :=
  Except.ok
    { left := left
      right := right
      name := name
      integerSeparators :=
        integerSeparators.getD (left.map (fun x => if x ≠ 10 then "," else "")) }

/-- `RadixBase.__getitem__`: the radix at a position, position 0 being the
rightmost integer position, negative positions the other integer positions and
positive positions the fractional ones. -/
def baseGet (b : RadixBase) (pos : Int) : Nat :=
  if pos ≤ 0 then loopGet b.left 0 (pos - 1) else loopGet b.right 0 (pos - 1)

/-- The running factor of the fractional loop of `RadixBase.float_at_pos`
(and of `BasedReal.__float__`): `weightFrac b n = 1 / (right[0] * ... * right[n-1])`. -/
def weightFrac (b : RadixBase) : Nat → Rat
  | 0 => 1
  | n + 1 => weightFrac b n / (loopGet b.right 0 n : Nat)

/-- The running factor of the integer branch of `RadixBase.float_at_pos`:
`weightInt b n = left[0] * ... * left[n-1]`. -/
def weightInt (b : RadixBase) : Nat → Rat
  | 0 => 1
  | n + 1 => weightInt b n * (loopGet b.left 0 n : Nat)

/-- `RadixBase.float_at_pos`: real weight of one unit at the given position. -/
def floatAtPos (b : RadixBase) (pos : Int) : Rat :=
  if 0 < pos then weightFrac b pos.toNat else weightInt b (-pos).toNat

/-- Search loop for `ndigitForRadix`: the least `k` (starting from the given
accumulator) such that `radix ≤ 10 ^ k`; the fuel `radix` always suffices. -/
def ndigitAux (radix : Nat) : Nat → Nat → Nat → Nat
  | 0, _, k => k
  | fuel + 1, pw, k => if radix ≤ pw then k else ndigitAux radix fuel (pw * 10) (k + 1)

/-- `ndigit_for_radix`: number of base-10 characters needed for one position,
`ceil (log10 radix)`, i.e. the least `k` with `radix ≤ 10 ^ k`. -/
def ndigitForRadix (radix : Nat) : Nat :=
  ndigitAux radix radix 1 0

/-- A value bound to a `RadixBase`: sign, integer digits (most significant
first), fractional digits, and the floating remainder tracking truncated
precision. -/
structure BasedReal where
  base : RadixBase
  left : List Int
  right : List Int
  remainder : Rat
  sign : Int
deriving DecidableEq

/-- Python `int(...)` truncation of a real number (toward zero). -/
def pyInt (q : Rat) : Int :=
  if 0 ≤ q then ⌊q⌋ else ⌈q⌉

/-- `int(np.sign(x)) or 1`: the sign used by `from_float`, with 0 mapped to 1. -/
def pySign (q : Rat) : Int :=
  if 0 < q then 1 else if q < 0 then -1 else 1

/-- First loop of `BasedReal.__check_range`: the integer digits, enumerated
least significant first (`self.left[::-1]`), are compared against
`self.base[-i]`; a digit is rejected iff it is negative or strictly exceeds
that radix. -/
def chkRev (b : RadixBase) : Nat → List Int → Except PyErr Unit
  | _, [] => Except.ok ()
  | i, s :: rest =>
      if s < 0 ∨ (baseGet b (-(i : Int)) : Int) < s then Except.error .illegalBaseValue
      else chkRev b (i + 1) rest

/-- Second loop of `BasedReal.__check_range`: the integer digits again, this
time enumerated most significant first, compared against `self.base[i + 1]`
(which is a fractional radix).  The fractional digits themselves are never
inspected by the source. -/
def chkFwd (b : RadixBase) : Nat → List Int → Except PyErr Unit
  | _, [] => Except.ok ()
  | i, s :: rest =>
      if s < 0 ∨ (baseGet b ((i : Int) + 1) : Int) < s then Except.error .illegalBaseValue
      else chkFwd b (i + 1) rest

/-- `BasedReal.__check_range`.  The float-digit scan of the source cannot fire
here because digits are integers by type; the two integer-digit loops are
transcribed as is. -/
def checkRange (v : BasedReal) : Except PyErr Unit :=
  if ¬ (v.sign = -1 ∨ v.sign = 1) then Except.error .valueError
  else do
    chkRev v.base 0 v.left.reverse
    chkFwd v.base 0 v.left

/-- Number of leading zeros removed by `BasedReal.__simplify_integer_part`. -/
def leadZeros : List Int → Nat
  | [] => 0
  | x :: t => if x = 0 then leadZeros t + 1 else 0

/-- The two-digit-tuple path of `BasedReal.__new__`: range-check, trim the
leading integer zeros (re-entering the constructor, which re-checks the
trimmed digits), and pad an empty integer part to `(0,)`. -/
def newBR (b : RadixBase) (l r : List Int) (rem : Rat) (sg : Int) :
    Except PyErr BasedReal := do
  checkRange ⟨b, l, r, rem, sg⟩
  let c := leadZeros l
  if c = 0 then
    Except.ok ⟨b, if l.isEmpty then [0] else l, r, rem, sg⟩
  else do
    let l2 := l.drop c
    checkRange ⟨b, l2, r, rem, sg⟩
    Except.ok ⟨b, if l2.isEmpty then [0] else l2, r, rem, sg⟩

/-- Integer-part accumulation of `BasedReal.__float__`: the digits are passed
least significant first (`self.left[-i-1]`), `factor` starting at 1 and being
multiplied by `base.left[i]` after each position. -/
def intVal (b : RadixBase) : Rat → Nat → List Int → Rat
  | _, _, [] => 0
  | factor, i, x :: t => factor * x + intVal b (factor * (loopGet b.left 0 i : Nat)) (i + 1) t

/-- Fractional-part accumulation of `BasedReal.__float__`: `factor` is divided
by `base.right[i]` before each digit is added. -/
def fracVal (b : RadixBase) : Rat → Nat → List Int → Rat
  | _, _, [] => 0
  | factor, i, x :: t =>
      let f2 := factor / (loopGet b.right 0 i : Nat)
      f2 * x + fracVal b f2 (i + 1) t

/-- `BasedReal.__float__`: the real value, remainder included, times the sign. -/
def BasedReal.toFloat (v : BasedReal) : Rat :=
  (intVal v.base 1 0 v.left.reverse + fracVal v.base 1 0 v.right
    + weightFrac v.base v.right.length * v.remainder) * v.sign

/-- The `while floa >= max_integer` loop of `from_float`, growing the integer
digit count; fuel-bounded (the Python loop terminates exactly when the
radices, all at least 2, eventually make the product exceed `floa`, and the
fuel supplied by `fromFloat` then suffices). -/
def growPos (b : RadixBase) (x : Rat) : Nat → Nat → Nat → Nat × Nat
  | 0, pos, m => (pos, m)
  | fuel + 1, pos, m =>
      if (m : Rat) ≤ x then growPos b x fuel (pos + 1) (m * loopGet b.left 0 pos)
      else (pos, m)

/-- Integer-digit extraction loop of `from_float`: `int_factor` is divided by
`base.left[i]` (exactly), the digit is `int(floa / int_factor)`, and the
extracted amount is subtracted. -/
def intDigits (b : RadixBase) : Nat → Nat → Nat → Rat → List Int × Rat
  | 0, _, _, x => ([], x)
  | steps + 1, i, m, x =>
      let f := m / loopGet b.left 0 i
      let d := pyInt (x / (f : Nat))
      let p := intDigits b steps (i + 1) f (x - d * (f : Nat))
      (d :: p.1, p.2)

/-- Fractional-digit extraction loop of `from_float`; returns the digits, the
final factor and the remaining residue. -/
def fracDigits (b : RadixBase) : Nat → Nat → Rat → Rat → List Int × Rat × Rat
  | 0, _, factor, x => ([], factor, x)
  | steps + 1, i, factor, x =>
      let f2 := factor / (loopGet b.right 0 i : Nat)
      let d := pyInt (x / f2)
      let p := fracDigits b steps (i + 1) f2 (x - d * f2)
      (d :: p.1, p.2.1, p.2.2)

/-- `BasedReal.from_float`: sign extraction, integer-size growth, digit
extraction for both parts, and the residue stored as `remainder`. -/
def fromFloat (b : RadixBase) (x : Rat) (significant : Nat) :
    Except PyErr BasedReal :=
  let sg := pySign x
  let xa := x * sg
  let pm := growPos b xa (xa.num.natAbs + 1) 0 1
  let li := intDigits b pm.1 0 pm.2 xa
  let fr := fracDigits b significant 0 1 li.2
  newBR b li.1 fr.1 (fr.2.2 / fr.2.1) sg

/-- `BasedReal.zero`. -/
def zeroBR (b : RadixBase) (significant : Nat) : Except PyErr BasedReal :=
  fromFloat b 0 significant

/-- `BasedReal.one`. -/
def oneBR (b : RadixBase) (significant : Nat) : Except PyErr BasedReal :=
  fromFloat b 1 significant

/-- `BasedReal.from_int`. -/
def fromInt (b : RadixBase) (value : Int) (significant : Nat) :
    Except PyErr BasedReal :=
  fromFloat b value significant

/-- Python slice `l[:n]`: a nonnegative stop takes a prefix, a negative stop
counts from the end. -/
def pyTake (l : List α) (n : Int) : List α :=
  if 0 ≤ n then l.take n.toNat else l.take (l.length - (-n).toNat)

/-- `BasedReal.resize`: extend by converting the weighted remainder through
`from_float`, or drop a tail of fractional digits whose value (as a fresh
`BasedReal` built from the dropped digits) becomes the new remainder.  A
negative target raises `NotImplementedError`. -/
def BasedReal.resize (v : BasedReal) (significant : Int) :
    Except PyErr BasedReal :=
  if significant = v.right.length then Except.ok v
  else
    let remainderValue := floatAtPos v.base v.right.length * v.remainder
    if (v.right.length : Int) < significant then do
      let rem ← fromFloat v.base (v.sign * remainderValue) significant.toNat
      newBR v.base v.left (v.right ++ rem.right.drop v.right.length)
        rem.remainder v.sign
    else if 0 ≤ significant then do
      let rempart ← newBR v.base [] (v.right.drop significant.toNat) v.remainder 1
      newBR v.base v.left (v.right.take significant.toNat) rempart.toFloat v.sign
    else Except.error .notImplemented

/-- `BasedReal.truncate`: keep the first `n` fractional digits (the rebuilt
value gets the default remainder 0.0); when `n` exceeds the current precision
the value itself is returned, remainder included. -/
def BasedReal.truncate (v : BasedReal) (n : Int) : Except PyErr BasedReal :=
  if (v.right.length : Int) < n then Except.ok v
  else newBR v.base v.left (pyTake v.right n) 0 v.sign

/-- `BasedReal.shift`: move the radix point by `i` positions by padding the
digit sequence with zeros and re-splitting it; remainder and sign are passed
through unchanged. -/
def BasedReal.shift (v : BasedReal) (i : Int) : Except PyErr BasedReal :=
  if i = 0 then Except.ok v
  else
    let digits := v.left ++ v.right
    let lr := (if 0 < i then List.replicate i.toNat (0 : Int) else [])
      ++ digits ++ (if 0 < i then [] else List.replicate (-i).toNat (0 : Int))
    let offset : Int := if 0 < i then v.left.length else (v.left.length : Int) - i
    let lft := pyTake lr offset
    let rgt := if offset < -i then (pyTake lr (-i)).drop offset.toNat
      else lr.drop offset.toNat
    newBR v.base lft rgt v.remainder v.sign

/-- `BasedReal.__neg__`: rebuild through the constructor with the sign
flipped. -/
def pyNeg (v : BasedReal) : Except PyErr BasedReal :=
  newBR v.base v.left v.right v.remainder (-v.sign)

/-- `BasedReal.__abs__`. -/
def pyAbs (v : BasedReal) : Except PyErr BasedReal :=
  if 0 ≤ v.sign then Except.ok v else pyNeg v

/-- Add a carry to the first element of the tail of the working array
(`array[i + 1] += c`). -/
def bumpBy : List Int → Int → List Int
  | [], _ => []
  | x :: t, c => (x + c) :: t

/-- The inner `add` closure of `BasedReal.__add__`: walk the working array
least significant position first, add the incoming signed digit, and when the
updated cell leaves `[0, radix)` replace it by its Python remainder and carry
a single `+1` or `-1` into the next cell.  The radix consulted at array index
`i` is `base[maxright - i]`. -/
def runAdd (b : RadixBase) (mr : Int) : Nat → List Int → List Int → List Int
  | _, arr, [] => arr
  | _, [], _ :: _ => []
  | i, x :: t, r :: rs =>
      let n := x + r
      let f : Int := baseGet b (mr - i)
      if n < 0 ∨ f ≤ n then
        (n % f) :: runAdd b mr (i + 1) (bumpBy t (if 0 < n then 1 else -1)) rs
      else n :: runAdd b mr (i + 1) t rs

/-- The `to_add` tuple of `BasedReal.__add__`: the value's digits reversed,
multiplied by its sign, padded with zeros to one less than the working-array
length. -/
def toAddVec (v : BasedReal) (numbersLen : Nat) : List Int :=
  ((v.left ++ v.right).reverse.map (fun x => v.sign * x))
    ++ List.replicate (numbersLen - (v.left ++ v.right).length - 1) 0

/-- `BasedReal.__add__` for operands of the same minted class: resize both to
the larger precision, pick the sign of the larger-magnitude operand, negate
both when it is negative, seed the working array with the truncated combined
remainder, run the carry pass once per operand, and split the reversed
absolute array back into integer and fractional digits. -/
def addSame (a other : BasedReal) : Except PyErr BasedReal := do
  let maxright := max a.right.length other.right.length
  let maxleft := max a.left.length other.left.length
  let va ← a.resize maxright
  let vb ← other.resize maxright
  let ava ← pyAbs va
  let avb ← pyAbs vb
  let sg := if avb.toFloat < ava.toFloat then va.sign else vb.sign
  let va2 ← if sg < 0 then pyNeg va else Except.ok va
  let vb2 ← if sg < 0 then pyNeg vb else Except.ok vb
  let rem0 := va2.remainder * va2.sign + vb2.remainder * vb2.sign
  let c := pyInt rem0
  let numbers : List Int :=
    (c : Int) :: List.replicate
      (max (va2.left ++ va2.right).length (vb2.left ++ vb2.right).length) 0
  let rem := rem0 - (c : Rat)
  let n1 := runAdd a.base maxright 0 numbers (toAddVec va2 numbers.length)
  let n2 := runAdd a.base maxright 0 n1 (toAddVec vb2 numbers.length)
  let allr := n2.reverse.map (fun x => if x < 0 then -x else x)
  newBR a.base (allr.take (maxleft + 1)) (allr.drop (maxleft + 1)) rem sg

/-- The tail of `addSame` after the monadic prologue: the pure computation on
the two sign-adjusted operands `x` and `y` (working base `b`, carry radices at
`maxright = mr`, integer split at `maxleft = ml`, result sign `sg`). -/
def addTail (b : RadixBase) (mr ml : Nat) (sg : Int) (x y : BasedReal) :
    Except PyErr BasedReal :=
  let rem0 := x.remainder * x.sign + y.remainder * y.sign
  let c := pyInt rem0
  let numbers : List Int :=
    (c : Int) :: List.replicate
      (max (x.left ++ x.right).length (y.left ++ y.right).length) 0
  let rem := rem0 - (c : Rat)
  let n1 := runAdd b mr 0 numbers (toAddVec x numbers.length)
  let n2 := runAdd b mr 0 n1 (toAddVec y numbers.length)
  let allr := n2.reverse.map (fun z => if z < 0 then -z else z)
  newBR b (allr.take (ml + 1)) (allr.drop (ml + 1)) rem sg

/-- `BasedReal.__add__`: operands of different bases are not rejected — the
other operand is silently rebuilt in this operand's base via
`from_float(float(other), len(self.right))` and added. -/
def BasedReal.add (a other : BasedReal) : Except PyErr BasedReal :=
  if a.base = other.base then addSame a other
  else do
    let c ← fromFloat a.base other.toFloat a.right.length
    addSame a c

/-- `self + scalar` for a Python numeric scalar (used by `__mul__` and
`__round__` paths): the scalar goes through `from_float` at the current
precision. -/
def addScalar (a : BasedReal) (q : Rat) : Except PyErr BasedReal := do
  let c ← fromFloat a.base q a.right.length
  addSame a c

/-- `BasedReal.__sub__`: `self + (-other)`. -/
def BasedReal.sub (a other : BasedReal) : Except PyErr BasedReal := do
  let nb ← pyNeg other
  a.add nb

/-- `BasedReal.__round__`: resize, add one signed unit at the target position
when the remainder reaches one half, then truncate. -/
def BasedReal.round (v : BasedReal) (significant : Option Int) :
    Except PyErr BasedReal := do
  let s := significant.getD v.right.length
  let n ← v.resize s
  let n2 ←
    if (1 : Rat) / 2 ≤ n.remainder then do
      let u ← newBR v.base [1] [] 0 v.sign
      let sh ← u.shift s
      n.add sh
    else Except.ok n
  n2.truncate s

/-- Per-row carry pass of `BasedReal.__mul__`: like the addition pass but the
carry into the next cell is the full quotient `n // factor`. -/
def runMul (b : RadixBase) (mr : Int) : Nat → List Int → List Int → List Int
  | _, arr, [] => arr
  | _, [], _ :: _ => []
  | i, x :: t, r :: rs =>
      let n := x + r
      let f : Int := baseGet b (mr - i)
      if n < 0 ∨ f ≤ n then
        (n % f) :: runMul b mr (i + 1) (bumpBy t (n / f)) rs
      else n :: runMul b mr (i + 1) t rs

/-- The final `while count[-1] != 0` loop of `BasedReal.__mul__`, extracting
further integer digits from the top carry cell; fuel-bounded (with radices at
least 2 and a nonnegative top cell — the only situation in which the Python
loop terminates — the fuel supplied by `mulSame` suffices). -/
def carryTop (b : RadixBase) (mr : Int) : Nat → List Int → List Int
  | 0, c => c
  | fuel + 1, c =>
      let last := c.getLastD 0
      if last ≠ 0 then
        let f : Int := baseGet b (mr - c.length)
        carryTop b mr fuel (c.dropLast ++ [last % f, last / f])
      else c

/-- `BasedReal.__mul__` for operands of the same minted class: Cauchy product
of the digit rows with mixed-radix carries, top-carry extraction, a `shift`
by `2 * max_right` to restore the radix point, then the cross-remainder
correction added as a scalar and the product sign applied. -/
def mulSame (a other : BasedReal) : Except PyErr BasedReal := do
  let sg := a.sign * other.sign
  let maxright := max a.right.length other.right.length
  let va ← a.resize maxright
  let vb ← other.resize maxright
  let rows := (va.left ++ va.right).reverse.enum.map
    (fun p => List.replicate p.1 (0 : Int)
      ++ ((vb.left ++ vb.right).map (fun s => p.2 * s)).reverse)
  let cnt0 : List Int :=
    List.replicate (rows.foldl (fun m rw => max m rw.length) 0) (0 : Int) ++ [0]
  let cnt := rows.foldl (fun c rw => runMul a.base maxright 0 c rw) cnt0
  let cnt2 := carryTop a.base maxright ((cnt.getLastD 0).natAbs + 1) cnt
  let res ← newBR a.base cnt2.reverse [] 0 1
  let res2 ← res.shift (2 * (maxright : Int))
  let vbRem := floatAtPos a.base maxright * vb.remainder
  let vaRem := floatAtPos a.base maxright * va.remainder
  let res3 ← addScalar res2 (va.toFloat * vbRem + vb.toFloat * vaRem + vaRem * vbRem)
  if sg < 0 then pyNeg res3 else Except.ok res3

/-- `BasedReal.__mul__`: a different-base operand is pushed through
`from_float` at this operand's precision.  (In the host runtime that call, fed
a foreign `BasedReal`, ends up raising `TypeMismatch` out of the division its
digit extraction performs; the transcription here follows the source text and
converts through the float value.) -/
def BasedReal.mul (a other : BasedReal) : Except PyErr BasedReal :=
  if a.base = other.base then mulSame a other
  else do
    let c ← fromFloat a.base other.toFloat a.right.length
    mulSame a c

/-- `BasedReal.euclidian_div`: left unimplemented by the source — every call
raises `NotImplementedError`. -/
def euclidianDiv (_a _other : BasedReal) :
    Except PyErr (BasedReal × BasedReal) :=
  Except.error .notImplemented

/-- `BasedReal.__int_imul`: multiply every digit and the remainder in place. -/
def intImul (v : BasedReal) (n : Int) : BasedReal :=
  ⟨v.base, v.left.map (fun x => x * n), v.right.map (fun x => x * n),
    v.remainder * n, v.sign⟩

/-- Digit loop of `BasedReal.__int_idiv`, most significant position first:
each cell becomes its quotient by `n` and the Python remainder is carried into
the next cell scaled by that cell's radix; the final remainder correction uses
the last two radices.  (Dead code behind `euclidian_div`; the source would in
fact fail on its item assignments.) -/
def intIdivGo (b : RadixBase) (n : Int) : Int → Int → List Int → List Int × Int
  | _, carry, [] => ([], carry)
  | p, carry, x :: t =>
      let cur := x + carry * (baseGet b p : Int)
      let q := cur / n
      let r := cur % n
      let pr := intIdivGo b n (p + 1) r t
      (q :: pr.1, pr.2)

/-- `BasedReal.__int_idiv` (dead code behind `euclidian_div`): the optional
resize result is discarded by the source; remainder is divided, digits are
divided with remainders cascading, and the final remainder correction is
added. -/
def intIdiv (v : BasedReal) (n : Int) (significant : Option Int) :
    Except PyErr BasedReal := do
  let _ ← match significant with
    | some s => if s ≠ 0 then do let _ ← v.resize s; Except.ok () else Except.ok ()
    | none => Except.ok ()
  let start : Int := -(v.left.length : Int) + 1
  let pr := intIdivGo b0 n start 0 (v.left ++ v.right)
  let lastPos : Int := v.right.length
  let rem2 := v.remainder / n
    + pr.2 * (baseGet v.base (lastPos + 1) : Rat) / ((baseGet v.base lastPos : Rat) * n)
  Except.ok ⟨v.base, pr.1.take v.left.length, pr.1.drop v.left.length, rem2, v.sign⟩
where b0 := v.base

/-- Main loop of `BasedReal.division` (dead code: the prologue's `sign`
assignment raises before the loop runs): each iteration starts with
`euclidian_div` (which the source leaves unimplemented), divides the quotient
by the running multiplier, accumulates it, and scales the remainder up by the
next fractional radix. -/
def divLoop (b : RadixBase) (denom : BasedReal) (significant : Nat) :
    Nat → Nat → Int → BasedReal → BasedReal →
    Except PyErr (BasedReal × BasedReal)
  | 0, _, _, qRes, num => Except.ok (qRes, num)
  | k + 1, i, mult, qRes, num => do
      let qr ← euclidianDiv num denom
      let q2 ← intIdiv qr.1 mult (some (significant : Int))
      let qRes2 ← qRes.add q2
      let r2 := intImul qr.2 (loopGet b.right 0 i : Nat)
      divLoop b denom significant k (i + 1) (mult * (loopGet b.right 0 i : Nat)) qRes2 r2

/-- `BasedReal.division`: reject a foreign base with `TypeMismatch`.  On a
matching base the prologue computes `final_sign`, deep-copies both operands,
and then executes `num_nv.sign = 1` — but `sign` is a setter-less `@property`
on a `__slots__` class, so this assignment raises `AttributeError` before the
quotient loop (and its unimplemented `euclidian_div`) is ever reached.  The
quotient machinery itself (`divLoop`, `__int_idiv`, `__int_imul`,
`euclidian_div`) is transcribed above as the dead code it is. -/
def BasedReal.division (a other : BasedReal) (significant : Nat) :
    Except PyErr BasedReal :=
  if ¬ (a.base = other.base) then Except.error .typeMismatch
  else Except.error .attributeError

/-- `BasedReal.__floordiv__` / `__mod__` delegate to `euclidian_div`. -/
def BasedReal.floordiv (a other : BasedReal) : Except PyErr BasedReal := do
  let qr ← euclidianDiv a other
  Except.ok qr.1

/-- `BasedReal.__eq__`: different minted class or different fractional length
falls back to real-valued comparison; otherwise structural equality of sign,
digit sequences and remainder. -/
def pyEqB (a other : BasedReal) : Bool :=
  if ¬ (a.base = other.base) ∨ ¬ (a.right.length = other.right.length) then
    a.toFloat = other.toFloat
  else
    a.sign = other.sign ∧ a.right = other.right ∧ a.left = other.left
      ∧ a.remainder = other.remainder

/-- Zero-pad a rendered digit on the left (`"0" * (digit - len(num)) + num`). -/
def padNum (width : Nat) (s : String) : String :=
  String.mk (List.replicate (width - s.length) '0') ++ s

/-- Integer-digit rendering loop of `BasedReal.__repr__`: separators come from
the base's looping separator list, each digit is zero-padded to the width of
its position's radix. -/
def renderLeft (b : RadixBase) : Nat → List Int → String
  | _, [] => ""
  | i, x :: t =>
      (if 0 < i then loopGet b.integerSeparators "" i else "")
        ++ padNum (ndigitForRadix (loopGet b.left 0 i)) (toString x)
        ++ renderLeft b (i + 1) t

/-- Fractional-digit rendering loop of `BasedReal.__repr__`: comma-joined,
zero-padded digits. -/
def renderRight (b : RadixBase) : Nat → List Int → String
  | _, [] => ""
  | i, [x] => padNum (ndigitForRadix (loopGet b.right 0 i)) (toString x)
  | i, x :: t =>
      padNum (ndigitForRadix (loopGet b.right 0 i)) (toString x) ++ ","
        ++ renderRight b (i + 1) t

/-- `BasedReal.__repr__`: round with respect to the remainder first, then
render (decimal base concatenates digits around a dot; other bases use the
separator machinery around `" ; "`). -/
def pyRepr (v : BasedReal) : Except PyErr String := do
  let nv ← v.round none
  if nv.base.name = "decimal" then
    Except.ok (String.join (nv.left.map toString) ++ "."
      ++ String.join (nv.right.map toString))
  else
    Except.ok ((if nv.sign < 0 then "-" else "")
      ++ renderLeft nv.base 0 nv.left ++ " ; " ++ renderRight nv.base 0 nv.right)

/-- Python `str.strip()` on a character list (whitespace at both ends). -/
def pyStrip (l : List Char) : List Char :=
  ((l.dropWhile Char.isWhitespace).reverse.dropWhile Char.isWhitespace).reverse

/-- Split a character list on every occurrence of a character (Python
`str.split(c)` for a one-character separator). -/
def splitChar (sep : Char) : List Char → List (List Char)
  | [] => [[]]
  | c :: t =>
      match splitChar sep t with
      | [] => [[]]
      | h :: r => if c = sep then [] :: h :: r else (c :: h) :: r

/-- Python `int(str)`: optional surrounding whitespace, optional sign, at
least one decimal digit; anything else raises `ValueError`. -/
def parseIntPy (l : List Char) : Except PyErr Int :=
  let s := pyStrip l
  let core : List Char → Except PyErr Int := fun ds =>
    if ds.length ≠ 0 ∧ ds.all Char.isDigit then
      Except.ok (ds.foldl (fun acc c => acc * 10 + ((c.toNat : Int) - ('0'.toNat : Int))) 0)
    else Except.error .valueError
  match s with
  | '-' :: ds => do let v ← core ds; Except.ok (-v)
  | '+' :: ds => core ds
  | ds => core ds

/-- Python `str.split(sep, 1)` for a (possibly multi-character) separator:
split at the first occurrence, or report that the separator is absent. -/
def splitOnceSub (sep : List Char) : List Char → Option (List Char × List Char)
  | [] => if sep.isPrefixOf [] then some ([], []) else none
  | c :: t =>
      if sep.isPrefixOf (c :: t) then some ([], (c :: t).drop sep.length)
      else match splitOnceSub sep t with
        | none => none
        | some p => some (c :: p.1, p.2)

/-- Final insertion of `from_string`'s integer loop: whatever is left of the
reversed integer text becomes the most significant digit. -/
def finishLeft (rleft : List Char) (acc : List Int) : Except PyErr (List Int) := do
  let v ← parseIntPy rleft.reverse
  Except.ok (v :: acc)

/-- The right-to-left integer parsing loop of `BasedReal.from_string`: at step
`i`, the (stripped, lowercased) separator `integer_separators[-i-1]` either
splits off the next digit or — when empty — a single character is consumed.
The loop breaks when the separator is absent or a single character remains,
and the residue is inserted as the most significant digit. -/
def parseLeftLoop (b : RadixBase) :
    Nat → Nat → List Char → List Int → Except PyErr (List Int)
  | 0, _, rleft, acc => finishLeft rleft acc
  | fuel + 1, i, rleft, acc =>
      let sep := pyStrip ((loopGet b.integerSeparators "" (-(i : Int) - 1)).data.map Char.toLower)
      let step : List Char → List Char → Except PyErr (List Int) :=
        fun value rem => do
          let v ← parseIntPy value.reverse
          let rleft2 := pyStrip rem
          if rleft2.length = 1 then finishLeft rleft2 (v :: acc)
          else parseLeftLoop b fuel (i + 1) rleft2 (v :: acc)
      if sep ≠ [] then
        match splitOnceSub sep rleft with
        | none => finishLeft rleft acc
        | some p => step p.1 p.2
      else
        match rleft with
        | [] => Except.error .indexError
        | c :: rest => step [c] rest

/-- Minimal model of Python's `float(str)` (a runtime builtin, outside this
repository): optional sign, decimal digits with an optional fractional part.
Only reached through the decimal short-circuit of `from_string`. -/
def parseFloatPy (l : List Char) : Except PyErr Rat :=
  let s := pyStrip l
  let digitsVal : List Char → Rat := fun ds =>
    (ds.foldl (fun acc c => acc * 10 + ((c.toNat : Int) - ('0'.toNat : Int))) 0 : Int)
  let core : List Char → Except PyErr Rat := fun ds =>
    match splitChar '.' ds with
    | [ip] =>
        if ip.length ≠ 0 ∧ ip.all Char.isDigit then Except.ok (digitsVal ip)
        else Except.error .valueError
    | [ip, fp] =>
        if (ip.all Char.isDigit ∧ fp.all Char.isDigit)
            ∧ ip.length + fp.length ≠ 0 then
          Except.ok (digitsVal ip + digitsVal fp / ((10 : Rat) ^ fp.length))
        else Except.error .valueError
    | _ => Except.error .valueError
  match s with
  | '-' :: ds => do let v ← core ds; Except.ok (-v)
  | '+' :: ds => core ds
  | ds => core ds

/-- Body of `BasedReal.from_string` after the sign has been stripped and the
string split on `";"`. -/
def fromStringCore (b : RadixBase) (sg : Int) (l r : List Char) :
    Except PyErr BasedReal := do
  let ls := pyStrip l
  let rs := pyStrip r
  let rightNums ← if 0 < rs.length then (splitChar ',' rs).mapM parseIntPy
    else Except.ok []
  let leftNums ← if 0 < ls.length then parseLeftLoop b ls.length 0 ls.reverse []
    else Except.ok []
  newBR b leftNums rightNums 0 sg

/-- `BasedReal.from_string`: the decimal base short-circuits through
`from_float(float(string), len(string))`; otherwise the string is stripped,
lowercased, sign-stripped and split once on `";"` (more splits raise
`TooManySeparators`, the empty string raises `EmptyStringException`). -/
def fromString (b : RadixBase) (s : String) : Except PyErr BasedReal :=
  if b.name = "decimal" then do
    let q ← parseFloatPy s.data
    fromFloat b q s.length
  else
    let t := (pyStrip s.data).map Char.toLower
    if t.length = 0 then Except.error .emptyString
    else
      let sg : Int := match t with | '-' :: _ => -1 | _ => 1
      let t2 := match t with | '-' :: rest => rest | _ => t
      match splitChar ';' t2 with
      | [l] => fromStringCore b sg l []
      | [l, r] => fromStringCore b sg l r
      | _ => Except.error .tooManySeps

/-- The standard bases registered at module load.  Each is the value produced
by `RadixBase.__init__` with the listed arguments (separators defaulted where
the source omits them). -/
def decimal : RadixBase := ⟨[10], [10], "decimal", [""]⟩

def sexagesimal : RadixBase := ⟨[60], [60], "sexagesimal", [","]⟩

def floatingSexagesimal : RadixBase := ⟨[60], [60], "floating_sexagesimal", [","]⟩

def historical : RadixBase := ⟨[10, 12, 30], [60], "historical", ["", "r ", "s "]⟩

def historicalDecimal : RadixBase := ⟨[10], [100], "historical_decimal", [""]⟩

def integerAndSexagesimal : RadixBase := ⟨[10], [60], "integer_and_sexagesimal", [""]⟩

def temporal : RadixBase := ⟨[10], [24, 60], "temporal", [""]⟩

/-! ## Specification-side definitions used by the verification

`valF` is the mixed-radix value of an addition working array (least
significant cell first, cell `i` weighted by the product of the radices
`base[maxright - j]` for `j < i`), and the predicates below describe digit
buffers: `NNBnd` (each cell canonical at its position), `BndAdds` (each cell
strictly below its position's radix in absolute value), `CanonBut` (every
cell but the last canonical), `leftOK` / `rightOK` (digit sequences of a
value bounded by their positions' radices), `WFBase` / `WF` (well-formed
bases and well-formed constructed values). -/

def valF (b : RadixBase) (mr : Int) : Nat → List Int → Int
  | _, [] => 0
  | i, x :: t => x + (baseGet b (mr - (i : Int)) : Int) * valF b mr (i + 1) t

/-- Product of the reciprocals of `k` fractional radices starting at index
`i`; `wseg b 0 n` agrees with `weightFrac b n`. -/
def wseg (b : RadixBase) : Nat → Nat → Rat
  | _, 0 => 1
  | i, k + 1 => 1 / (loopGet b.right 0 i : Nat) * wseg b (i + 1) k

def NNBnd (b : RadixBase) (mr : Int) : Nat → List Int → Prop
  | _, [] => True
  | i, x :: t =>
      (0 ≤ x ∧ x < (baseGet b (mr - (i : Int)) : Int)) ∧ NNBnd b mr (i + 1) t

def BndAdds (b : RadixBase) (mr : Int) : Nat → List Int → Prop
  | _, [] => True
  | i, x :: t =>
      (-(baseGet b (mr - (i : Int)) : Int) < x
          ∧ x < (baseGet b (mr - (i : Int)) : Int))
        ∧ BndAdds b mr (i + 1) t

def CanonBut (b : RadixBase) (mr : Int) : Nat → List Int → Prop
  | _, [] => True
  | _, [_] => True
  | i, x :: y :: t =>
      (0 ≤ x ∧ x < (baseGet b (mr - (i : Int)) : Int))
        ∧ CanonBut b mr (i + 1) (y :: t)

def leftOK (b : RadixBase) : Nat → List Int → Prop
  | _, [] => True
  | k, x :: t => (0 ≤ x ∧ x < (baseGet b (-(k : Int)) : Int)) ∧ leftOK b (k + 1) t

def rightOK (b : RadixBase) : Nat → List Int → Prop
  | _, [] => True
  | j, x :: t =>
      (0 ≤ x ∧ x < (baseGet b ((j : Int) + 1) : Int)) ∧ rightOK b (j + 1) t

def WFBase (b : RadixBase) : Prop :=
  b.left ≠ [] ∧ b.right ≠ [] ∧ (∀ x ∈ b.left, 2 ≤ x) ∧ (∀ x ∈ b.right, 2 ≤ x)

/-- A well-formed value: well-formed base, valid sign, remainder in `[0, 1)`,
digits within their positions' radices, integer part trimmed (or the single
digit `[0]`) and nonempty, and the constructor's own range check passing. -/
def WF (v : BasedReal) : Prop :=
  WFBase v.base ∧ (v.sign = 1 ∨ v.sign = -1) ∧ 0 ≤ v.remainder ∧ v.remainder < 1
    ∧ leftOK v.base 0 v.left.reverse ∧ rightOK v.base 0 v.right
    ∧ (leadZeros v.left = 0 ∨ v.left = [0]) ∧ v.left ≠ []
    ∧ checkRange v = Except.ok ()

instance leftOKDec (b : RadixBase) :
    (k : Nat) → (l : List Int) → Decidable (leftOK b k l)
  | _, [] => .isTrue trivial
  | k, _ :: t =>
      have : Decidable (leftOK b (k + 1) t) := leftOKDec b (k + 1) t
      inferInstanceAs (Decidable (_ ∧ _))

instance rightOKDec (b : RadixBase) :
    (j : Nat) → (l : List Int) → Decidable (rightOK b j l)
  | _, [] => .isTrue trivial
  | j, _ :: t =>
      have : Decidable (rightOK b (j + 1) t) := rightOKDec b (j + 1) t
      inferInstanceAs (Decidable (_ ∧ _))

instance WFBaseDec (b : RadixBase) : Decidable (WFBase b) := by
  unfold WFBase
  infer_instance

instance WFDec (v : BasedReal) : Decidable (WF v) := by
  unfold WF
  infer_instance

/-! ## Helper lemmas -/

/-- Whatever branch `BasedReal.__new__` takes, a successful construction only
rebuilds the integer digits: base, fractional digits, remainder and sign are
exactly the arguments. -/
theorem newBR_ok_shape {b : RadixBase} {l r : List Int} {rem : Rat} {sg : Int}
    {v : BasedReal} (h : newBR b l r rem sg = Except.ok v) :
    ∃ l2, v = ⟨b, l2, r, rem, sg⟩ := by
  unfold newBR at h
  cases hc : checkRange ⟨b, l, r, rem, sg⟩ with
  | error e => rw [hc] at h; simp [Bind.bind, Except.bind] at h
  | ok u =>
    rw [hc] at h
    simp only [Bind.bind, Except.bind] at h
    split at h
    · exact ⟨_, (Except.ok.injEq _ _).mp h.symm⟩
    · cases hc2 : checkRange ⟨b, l.drop (leadZeros l), r, rem, sg⟩ with
      | error e => rw [hc2] at h; simp [Bind.bind, Except.bind] at h
      | ok u2 =>
        rw [hc2] at h
        simp only [Bind.bind, Except.bind] at h
        exact ⟨_, (Except.ok.injEq _ _).mp h.symm⟩

/-- `checkRange` reads only the base, the integer digits and the sign. -/
theorem checkRange_congr (b : RadixBase) (l : List Int) (r1 r2 : List Int)
    (m1 m2 : Rat) (sg : Int) :
    checkRange ⟨b, l, r1, m1, sg⟩ = checkRange ⟨b, l, r2, m2, sg⟩ := rfl

theorem loopGet_mem {α : Type} (l : List α) (d : α) (i : Int) (h : l ≠ []) :
    loopGet l d i ∈ l := by
  unfold loopGet
  have hlen : 0 < l.length := List.length_pos.mpr h
  rw [if_neg (by omega)]
  have h1 : 0 ≤ i.emod l.length := Int.emod_nonneg _ (by exact_mod_cast hlen.ne')
  have h2 : i.emod l.length < l.length := Int.emod_lt_of_pos _ (by exact_mod_cast hlen)
  have hidx : (i.emod l.length).toNat < l.length := by omega
  rw [List.getD_eq_getElem l d hidx]
  exact List.getElem_mem hidx

theorem two_le_baseGet {b : RadixBase} (hb : WFBase b) (pos : Int) :
    2 ≤ baseGet b pos := by
  obtain ⟨hl, hr, hL, hR⟩ := hb
  unfold baseGet
  split
  · exact hL _ (loopGet_mem _ _ _ hl)
  · exact hR _ (loopGet_mem _ _ _ hr)

theorem two_le_baseGetZ {b : RadixBase} (hb : WFBase b) (pos : Int) :
    (2 : Int) ≤ (baseGet b pos : Int) := by exact_mod_cast two_le_baseGet hb pos

theorem pyInt_of_unit {q : Rat} (h0 : 0 ≤ q) (h1 : q < 1) : pyInt q = 0 := by
  unfold pyInt
  rw [if_pos h0]
  exact Int.floor_eq_zero_iff.mpr ⟨h0, h1⟩

theorem pyInt_bounds {q : Rat} (h0 : -2 < q) (h1 : q < 2) :
    -1 ≤ pyInt q ∧ pyInt q ≤ 1 := by
  unfold pyInt
  split
  · constructor
    · exact le_trans (by norm_num) (Int.floor_nonneg.mpr (by assumption))
    · have h2 : (q : Rat) < ((2 : Int) : Rat) := by exact_mod_cast h1
      have := Int.floor_lt.mpr h2
      omega
  · constructor
    · have h2 : ((-2 : Int) : Rat) < q := by exact_mod_cast h0
      have := Int.lt_ceil.mpr h2
      omega
    · have hq : q ≤ ((0 : Int) : Rat) := by
        push_cast
        exact le_of_not_le (by assumption)
      exact le_trans (Int.ceil_le.mpr hq) (by norm_num)

theorem valF_replicate (b : RadixBase) (mr : Int) :
    ∀ (n i : Nat), valF b mr i (List.replicate n 0) = 0
  | 0, _ => rfl
  | n + 1, i => by
      simp [List.replicate, valF, valF_replicate b mr n (i + 1)]

theorem valF_append_zero (b : RadixBase) (mr : Int) :
    ∀ (l : List Int) (i : Nat), valF b mr i (l ++ [0]) = valF b mr i l
  | [], _ => by simp [valF]
  | x :: t, i => by
      simp [valF, valF_append_zero b mr t (i + 1)]

theorem CanonBut_replicate {b : RadixBase} {mr : Int} (hb : WFBase b) :
    ∀ (n i : Nat), CanonBut b mr i (List.replicate n 0)
  | 0, _ => trivial
  | 1, _ => trivial
  | n + 2, i => by
      have hF := two_le_baseGetZ hb (mr - (i : Int))
      exact ⟨⟨le_refl 0, by omega⟩, CanonBut_replicate hb (n + 1) (i + 1)⟩

theorem NNBnd_CanonBut {b : RadixBase} {mr : Int} :
    ∀ {l : List Int} {i : Nat}, NNBnd b mr i l → CanonBut b mr i l
  | [], _, _ => trivial
  | [_], _, _ => trivial
  | _ :: _ :: _, _, h => ⟨h.1, NNBnd_CanonBut h.2⟩

theorem NNBnd_CanonBut_top {b : RadixBase} {mr : Int} :
    ∀ {l : List Int} {i : Nat} (_top : Int), NNBnd b mr i l →
      CanonBut b mr i (l ++ [_top])
  | [], _, _, _ => trivial
  | x :: t, i, tp, h => by
      cases t with
      | nil => exact ⟨h.1, trivial⟩
      | cons y t' => exact ⟨h.1, NNBnd_CanonBut_top tp h.2⟩

theorem BndAdds_replicate {b : RadixBase} {mr : Int} (hb : WFBase b) :
    ∀ (n i : Nat), BndAdds b mr i (List.replicate n 0)
  | 0, _ => trivial
  | n + 1, i => by
      have hF := two_le_baseGetZ hb (mr - (i : Int))
      exact ⟨⟨by omega, by omega⟩, BndAdds_replicate hb n (i + 1)⟩

theorem BndAdds_append {b : RadixBase} {mr : Int} :
    ∀ {l1 l2 : List Int} {i : Nat}, BndAdds b mr i l1 →
      BndAdds b mr (i + l1.length) l2 → BndAdds b mr i (l1 ++ l2)
  | [], l2, i, _, h2 => by simpa using h2
  | x :: t, l2, i, h1, h2 => by
      refine ⟨h1.1, BndAdds_append h1.2 ?_⟩
      have : i + 1 + t.length = i + (x :: t).length := by simp; omega
      rw [this]
      exact h2

theorem BndAdds_map_sign {b : RadixBase} {mr : Int} {s : Int}
    (hs : s = 1 ∨ s = -1) :
    ∀ {l : List Int} {i : Nat}, NNBnd b mr i l →
      BndAdds b mr i (l.map (fun x => s * x))
  | [], _, _ => trivial
  | x :: t, i, h => by
      refine ⟨?_, BndAdds_map_sign hs h.2⟩
      obtain ⟨h0, h1⟩ := h.1
      rcases hs with rfl | rfl
      · simp only [one_mul]
        exact ⟨by omega, by omega⟩
      · simp only [neg_one_mul]
        exact ⟨by omega, by omega⟩

theorem ediv_of_neg_cell {n f : Int} (hf : 0 < f) (h1 : -f ≤ n) (h2 : n < 0) :
    n / f = -1 := by
  have he : n = (n + f) + (-1) * f := by ring
  rw [he, Int.add_mul_ediv_right _ _ (by omega)]
  rw [Int.ediv_eq_zero_of_lt (by omega) (by omega)]
  norm_num

theorem ediv_of_carry_cell {n f : Int} (hf : 0 < f) (h1 : f ≤ n) (h2 : n < 2 * f) :
    n / f = 1 := by
  have he : n = (n - f) + 1 * f := by ring
  rw [he, Int.add_mul_ediv_right _ _ (by omega)]
  rw [Int.ediv_eq_zero_of_lt (by omega) (by omega)]
  norm_num

theorem valF_nil (b : RadixBase) (mr : Int) (i : Nat) : valF b mr i [] = 0 := rfl

theorem valF_cons (b : RadixBase) (mr : Int) (i : Nat) (x : Int) (t : List Int) :
    valF b mr i (x :: t)
      = x + (baseGet b (mr - (i : Int)) : Int) * valF b mr (i + 1) t := rfl

/-- Master lemma for the carry pass of `__add__`: one `add(array, values)`
sweep over a buffer whose head may be perturbed by one unit and whose other
cells (apart from the top one) are canonical, fed digits strictly bounded by
their positions' radices, preserves the buffer length, leaves every cell
except the top canonical, and adds exactly the digits' mixed-radix value to
the buffer's. -/
theorem runAdd_go {b : RadixBase} {mr : Int} (hb : WFBase b) :
    ∀ (adds t : List Int) (i : Nat) (x : Int),
    t.length = adds.length →
    BndAdds b mr i adds →
    (adds ≠ [] → -1 ≤ x ∧ x ≤ (baseGet b (mr - (i : Int)) : Int)) →
    CanonBut b mr (i + 1) t →
    (runAdd b mr i (x :: t) adds).length = t.length + 1
      ∧ CanonBut b mr i (runAdd b mr i (x :: t) adds)
      ∧ valF b mr i (runAdd b mr i (x :: t) adds)
        = valF b mr i (x :: t) + valF b mr i adds
  | [], t, i, x => by
      intro hlen _ _ _
      have ht : t = [] := List.length_eq_zero.mp (by simpa using hlen)
      subst ht
      refine ⟨rfl, trivial, ?_⟩
      simp [runAdd, valF]
  | r :: rs, t, i, x => by
      intro hlen hbnd hslack hcb
      obtain ⟨y, t', rfl⟩ : ∃ y t', t = y :: t' := by
        cases t with
        | nil => simp at hlen
        | cons y t' => exact ⟨y, t', rfl⟩
      obtain ⟨⟨hr1, hr2⟩, hbnd'⟩ := hbnd
      obtain ⟨hx1, hx2⟩ := hslack (by simp)
      have hlen' : t'.length = rs.length := by simpa using hlen
      have hF : (2 : Int) ≤ (baseGet b (mr - (i : Int)) : Int) := two_le_baseGetZ hb _
      have hcb' : CanonBut b mr (i + 1 + 1) t' := by
        cases t' with
        | nil => trivial
        | cons z t'' => exact hcb.2
      have hyslack : rs ≠ [] →
          0 ≤ y ∧ y < (baseGet b (mr - ((i + 1 : Nat) : Int)) : Int) := by
        intro hrs
        have ht' : t' ≠ [] := by
          intro h
          rw [h] at hlen'
          exact hrs (List.length_eq_zero.mp hlen'.symm)
        obtain ⟨z, t'', rfl⟩ : ∃ z t'', t' = z :: t'' := by
          cases t' with
          | nil => exact absurd rfl ht'
          | cons z t'' => exact ⟨z, t'', rfl⟩
        exact hcb.1
      by_cases hcond : x + r < 0 ∨ (baseGet b (mr - (i : Int)) : Int) ≤ x + r
      · -- normalisation step: one unit carried into the next cell
        have hrun : runAdd b mr i (x :: y :: t') (r :: rs)
            = ((x + r) % (baseGet b (mr - (i : Int)) : Int))
              :: runAdd b mr (i + 1)
                ((y + (if 0 < x + r then 1 else -1)) :: t') rs := by
          simp only [runAdd, hcond, if_true, bumpBy]
        have hc : (if 0 < x + r then (1 : Int) else -1)
            = (x + r) / (baseGet b (mr - (i : Int)) : Int) := by
          rcases hcond with hneg | hcar
          · rw [if_neg (by omega), ediv_of_neg_cell (by omega) (by omega) hneg]
          · rw [if_pos (by omega), ediv_of_carry_cell (by omega) hcar (by omega)]
        have hcslack : -1 ≤ (if 0 < x + r then (1 : Int) else -1)
            ∧ (if 0 < x + r then (1 : Int) else -1) ≤ 1 := by
          split <;> omega
        have hrec := runAdd_go hb rs t' (i + 1) (y + (if 0 < x + r then 1 else -1))
          hlen' hbnd'
          (fun hrs => by
            obtain ⟨hy0, hy1⟩ := hyslack hrs
            exact ⟨by omega, by omega⟩)
          hcb'
        obtain ⟨hrlen, hrcanon, hrval⟩ := hrec
        rw [hrun]
        have hfpos : (0 : Int) < (baseGet b (mr - (i : Int)) : Int) := by omega
        have hmod0 : 0 ≤ (x + r) % (baseGet b (mr - (i : Int)) : Int) :=
          Int.emod_nonneg _ (by omega)
        have hmodlt : (x + r) % (baseGet b (mr - (i : Int)) : Int)
            < (baseGet b (mr - (i : Int)) : Int) :=
          Int.emod_lt_of_pos _ hfpos
        refine ⟨by simpa using hrlen, ?_, ?_⟩
        · have hne : runAdd b mr (i + 1)
              ((y + (if 0 < x + r then 1 else -1)) :: t') rs ≠ [] := by
            intro h
            have hlc := congrArg List.length h
            rw [hrlen] at hlc
            simp at hlc
          obtain ⟨w, rest, hw⟩ : ∃ w rest,
              runAdd b mr (i + 1) ((y + (if 0 < x + r then 1 else -1)) :: t') rs
                = w :: rest := by
            cases hh : runAdd b mr (i + 1)
                ((y + (if 0 < x + r then 1 else -1)) :: t') rs with
            | nil => exact absurd hh hne
            | cons w rest => exact ⟨w, rest, rfl⟩
          rw [hw]
          rw [hw] at hrcanon
          exact ⟨⟨hmod0, hmodlt⟩, hrcanon⟩
        · rw [valF_cons, hrval, valF_cons b mr (i + 1)
            (y + (if 0 < x + r then 1 else -1)) t', hc]
          rw [valF_cons b mr i x (y :: t'), valF_cons b mr i r rs,
            valF_cons b mr (i + 1) y t']
          have hmodid := Int.emod_add_ediv (x + r) (baseGet b (mr - (i : Int)) : Int)
          linear_combination hmodid
      · -- in-range step: the cell absorbs the digit with no carry
        have hrun : runAdd b mr i (x :: y :: t') (r :: rs)
            = (x + r) :: runAdd b mr (i + 1) (y :: t') rs := by
          simp only [runAdd, hcond, if_false]
        have hrec := runAdd_go hb rs t' (i + 1) y hlen' hbnd'
          (fun hrs => by
            obtain ⟨hy0, hy1⟩ := hyslack hrs
            exact ⟨by omega, by omega⟩)
          hcb'
        obtain ⟨hrlen, hrcanon, hrval⟩ := hrec
        rw [hrun]
        push_neg at hcond
        refine ⟨by simpa using hrlen, ?_, ?_⟩
        · have hne : runAdd b mr (i + 1) (y :: t') rs ≠ [] := by
            intro h
            have hlc := congrArg List.length h
            rw [hrlen] at hlc
            simp at hlc
          obtain ⟨w, rest, hw⟩ : ∃ w rest,
              runAdd b mr (i + 1) (y :: t') rs = w :: rest := by
            cases hh : runAdd b mr (i + 1) (y :: t') rs with
            | nil => exact absurd hh hne
            | cons w rest => exact ⟨w, rest, rfl⟩
          rw [hw]
          rw [hw] at hrcanon
          exact ⟨⟨hcond.1, hcond.2⟩, hrcanon⟩
        · rw [valF_cons, hrval, valF_cons b mr i x (y :: t'),
            valF_cons b mr i r rs]
          ring

/-- Canonical representations are unique: two buffers of equal length whose
cells (apart from the top one) are canonical and whose mixed-radix values
agree are equal. -/
theorem canon_unique {b : RadixBase} {mr : Int} (hb : WFBase b) :
    ∀ (l1 l2 : List Int) (i : Nat), l1.length = l2.length →
    CanonBut b mr i l1 → CanonBut b mr i l2 →
    valF b mr i l1 = valF b mr i l2 → l1 = l2
  | [], l2, i => by
      intro hlen _ _ _
      exact (List.length_eq_zero.mp (by simpa using hlen.symm)).symm
  | x :: t1, l2, i => by
      intro hlen hc1 hc2 hval
      obtain ⟨y, t2, rfl⟩ : ∃ y t2, l2 = y :: t2 := by
        cases l2 with
        | nil => simp at hlen
        | cons y t2 => exact ⟨y, t2, rfl⟩
      have hlen' : t1.length = t2.length := by simpa using hlen
      cases t1 with
      | nil =>
          have ht2 : t2 = [] := List.length_eq_zero.mp (by simpa using hlen'.symm)
          subst ht2
          rw [valF_cons, valF_cons, valF_nil] at hval
          have hxy : x = y := by
            have h0 : (baseGet b (mr - (i : Int)) : Int) * 0 = 0 := mul_zero _
            rw [h0] at hval
            omega
          rw [hxy]
      | cons z1 t1' =>
          obtain ⟨z2, t2', rfl⟩ : ∃ z2 t2', t2 = z2 :: t2' := by
            cases t2 with
            | nil => simp at hlen'
            | cons z2 t2' => exact ⟨z2, t2', rfl⟩
          obtain ⟨⟨hx0, hx1⟩, hc1'⟩ := hc1
          obtain ⟨⟨hy0, hy1⟩, hc2'⟩ := hc2
          rw [valF_cons b mr i x (z1 :: t1'), valF_cons b mr i y (z2 :: t2')] at hval
          have hf2 : (2 : Int) ≤ (baseGet b (mr - (i : Int)) : Int) :=
            two_le_baseGetZ hb _
          have hdiff : x - y = (baseGet b (mr - (i : Int)) : Int)
              * (valF b mr (i + 1) (z2 :: t2') - valF b mr (i + 1) (z1 :: t1')) := by
            linear_combination hval
          have hxy : x = y := by
            rcases lt_trichotomy (valF b mr (i + 1) (z2 :: t2')
                - valF b mr (i + 1) (z1 :: t1')) 0 with hk | hk | hk
            · have hk1 : valF b mr (i + 1) (z2 :: t2')
                  - valF b mr (i + 1) (z1 :: t1') ≤ -1 := by omega
              have := mul_le_mul_of_nonneg_left hk1
                (le_trans (by norm_num) hf2 :
                  (0 : Int) ≤ (baseGet b (mr - (i : Int)) : Int))
              omega
            · rw [hk, mul_zero] at hdiff
              omega
            · have hk1 : (1 : Int) ≤ valF b mr (i + 1) (z2 :: t2')
                  - valF b mr (i + 1) (z1 :: t1') := by omega
              have := mul_le_mul_of_nonneg_left hk1
                (le_trans (by norm_num) hf2 :
                  (0 : Int) ≤ (baseGet b (mr - (i : Int)) : Int))
              omega
          have hvv : valF b mr (i + 1) (z1 :: t1') = valF b mr (i + 1) (z2 :: t2') := by
            rw [hxy] at hdiff
            have hz : (baseGet b (mr - (i : Int)) : Int)
                * (valF b mr (i + 1) (z2 :: t2') - valF b mr (i + 1) (z1 :: t1'))
                = 0 := by omega
            rcases mul_eq_zero.mp hz with h | h
            · omega
            · omega
          have htl := canon_unique hb (z1 :: t1') (z2 :: t2') (i + 1) hlen' hc1' hc2' hvv
          rw [hxy, htl]

theorem NNBnd_append {b : RadixBase} {mr : Int} :
    ∀ {l1 l2 : List Int} {i : Nat}, NNBnd b mr i l1 →
      NNBnd b mr (i + l1.length) l2 → NNBnd b mr i (l1 ++ l2)
  | [], l2, i, _, h2 => by simpa using h2
  | x :: t, l2, i, h1, h2 => by
      refine ⟨h1.1, NNBnd_append h1.2 ?_⟩
      have he : i + 1 + t.length = i + (x :: t).length := by simp; omega
      rw [he]
      exact h2

theorem rightOK_append {b : RadixBase} :
    ∀ {l1 l2 : List Int} {i : Nat}, rightOK b i l1 →
      rightOK b (i + l1.length) l2 → rightOK b i (l1 ++ l2)
  | [], l2, i, _, h2 => by simpa using h2
  | x :: t, l2, i, h1, h2 => by
      refine ⟨h1.1, rightOK_append h1.2 ?_⟩
      have he : i + 1 + t.length = i + (x :: t).length := by simp; omega
      rw [he]
      exact h2

/-- Integer digits, enumerated least significant first, are canonical cells of
the working array: at array index `j` with `mr - j = -k` the radix consulted
by the carry pass is exactly the one `__check_range`'s first loop uses. -/
theorem leftOK_NNBnd {b : RadixBase} {mr : Int} :
    ∀ (l : List Int) (k j : Nat), mr - (j : Int) = -(k : Int) →
      leftOK b k l → NNBnd b mr j l
  | [], _, _, _, _ => trivial
  | x :: t, k, j, hidx, h => by
      refine ⟨?_, leftOK_NNBnd t (k + 1) (j + 1) (by push_cast at hidx ⊢; omega) h.2⟩
      rw [hidx]
      exact h.1

/-- Fractional digits reversed (least significant first) are canonical cells
of the working array. -/
theorem rightOK_rev_NNBnd {b : RadixBase} {mr : Int} :
    ∀ (r : List Int) (i j : Nat), mr - (j : Int) = (i : Int) + r.length →
      rightOK b i r → NNBnd b mr j r.reverse
  | [], _, _, _, _ => by simpa using trivial
  | d :: t, i, j, hidx, h => by
      have hrev : (d :: t).reverse = t.reverse ++ [d] := by simp
      rw [hrev]
      refine NNBnd_append
        (rightOK_rev_NNBnd t (i + 1) j (by push_cast at hidx ⊢; simp at hidx ⊢; omega) h.2)
        ?_
      refine ⟨?_, trivial⟩
      have he : mr - ((j + t.reverse.length : Nat) : Int) = (i : Int) + 1 := by
        rw [List.length_reverse]
        push_cast at hidx ⊢
        simp at hidx
        omega
      rw [he]
      exact h.1

/-- The `to_add` vector of a value whose fractional length equals the working
precision is strictly bounded cellwise by the radices the carry pass
consults. -/
theorem toAddVec_bnd {b : RadixBase} (hb : WFBase b) (v : BasedReal)
    (hs : v.sign = 1 ∨ v.sign = -1)
    (hl : leftOK b 0 v.left.reverse) (hr : rightOK b 0 v.right) (n : Nat) :
    BndAdds b (v.right.length : Int) 0 (toAddVec v n) := by
  unfold toAddVec
  refine BndAdds_append ?_ ?_
  · refine BndAdds_map_sign hs ?_
    have hrev : (v.left ++ v.right).reverse = v.right.reverse ++ v.left.reverse := by
      simp
    rw [hrev]
    refine NNBnd_append ?_ ?_
    · exact rightOK_rev_NNBnd v.right 0 0 (by simp) hr
    · refine leftOK_NNBnd v.left.reverse 0 (0 + v.right.reverse.length) ?_ hl
      simp
  · exact BndAdds_replicate hb _ _

/-- Adding an all-zero digit vector to a buffer whose first `k` cells are
canonical leaves the buffer unchanged. -/
theorem runAdd_zeros {b : RadixBase} {mr : Int} :
    ∀ (k : Nat) (arr : List Int) (i : Nat), k < arr.length →
      CanonBut b mr i arr → runAdd b mr i arr (List.replicate k 0) = arr
  | 0, arr, i, _, _ => by cases arr <;> rfl
  | k + 1, arr, i, hk, hcb => by
      obtain ⟨x, t, rfl⟩ : ∃ x t, arr = x :: t := by
        cases arr with
        | nil => simp at hk
        | cons x t => exact ⟨x, t, rfl⟩
      have ht : t ≠ [] := by
        intro h
        rw [h] at hk
        simp at hk
      obtain ⟨z, t', rfl⟩ : ∃ z t', t = z :: t' := by
        cases t with
        | nil => exact absurd rfl ht
        | cons z t' => exact ⟨z, t', rfl⟩
      obtain ⟨⟨hx0, hx1⟩, hcb'⟩ := hcb
      have hrep : List.replicate (k + 1) (0 : Int) = 0 :: List.replicate k 0 := rfl
      rw [hrep]
      have hcond : ¬ (x + 0 < 0 ∨ (baseGet b (mr - (i : Int)) : Int) ≤ x + 0) := by
        omega
      simp only [runAdd, hcond, if_false]
      rw [runAdd_zeros k (z :: t') (i + 1) (by simpa using hk) hcb']
      simp

theorem pyInt_of_nonneg {q : Rat} (h : 0 ≤ q) : pyInt q = ⌊q⌋ := if_pos h

theorem two_le_loopRight {b : RadixBase} (hb : WFBase b) (i : Int) :
    2 ≤ loopGet b.right 0 i :=
  hb.2.2.2 _ (loopGet_mem _ _ _ hb.2.1)

theorem loopRight_cast_pos {b : RadixBase} (hb : WFBase b) (i : Int) :
    (0 : Rat) < (loopGet b.right 0 i : Nat) := by
  have h := two_le_loopRight hb i
  have h2 : 0 < loopGet b.right 0 i := by omega
  exact_mod_cast h2

theorem wseg_pos {b : RadixBase} (hb : WFBase b) : ∀ (k i : Nat), 0 < wseg b i k
  | 0, _ => one_pos
  | k + 1, i => by
      have hc := loopRight_cast_pos hb i
      exact mul_pos (div_pos one_pos hc) (wseg_pos hb k (i + 1))

theorem wseg_le_one {b : RadixBase} (hb : WFBase b) : ∀ (k i : Nat), wseg b i k ≤ 1
  | 0, _ => le_refl 1
  | k + 1, i => by
      have hc := loopRight_cast_pos hb i
      have h1 : 1 / ((loopGet b.right 0 (i : Int) : Nat) : Rat) ≤ 1 := by
        rw [div_le_one hc]
        have := two_le_loopRight hb i
        exact_mod_cast by omega
      exact mul_le_one₀ h1 (wseg_pos hb k (i + 1)).le (wseg_le_one hb k (i + 1))

theorem wseg_snoc (b : RadixBase) :
    ∀ (k i : Nat), wseg b i (k + 1)
      = wseg b i k * (1 / (loopGet b.right 0 ((i + k : Nat) : Int) : Nat))
  | 0, i => by simp [wseg]
  | k + 1, i => by
      have h1 : wseg b i (k + 1 + 1)
          = 1 / (loopGet b.right 0 (i : Int) : Nat) * wseg b (i + 1) (k + 1) := rfl
      have h2 : wseg b i (k + 1)
          = 1 / (loopGet b.right 0 (i : Int) : Nat) * wseg b (i + 1) k := rfl
      rw [h1, wseg_snoc b k (i + 1), h2]
      have hidx : i + 1 + k = i + (k + 1) := by omega
      rw [hidx]
      ring

theorem weightFrac_eq_wseg (b : RadixBase) : ∀ n, weightFrac b n = wseg b 0 n
  | 0 => rfl
  | n + 1 => by
      have h1 : weightFrac b (n + 1)
          = weightFrac b n / (loopGet b.right 0 (n : Int) : Nat) := rfl
      rw [h1, weightFrac_eq_wseg b n, wseg_snoc b n 0]
      have hidx : (0 + n : Nat) = n := by omega
      rw [hidx]
      ring

theorem weightFrac_pos {b : RadixBase} (hb : WFBase b) (n : Nat) :
    0 < weightFrac b n := by
  rw [weightFrac_eq_wseg]
  exact wseg_pos hb n 0

theorem weightFrac_le_one {b : RadixBase} (hb : WFBase b) (n : Nat) :
    weightFrac b n ≤ 1 := by
  rw [weightFrac_eq_wseg]
  exact wseg_le_one hb n 0

theorem wseg_add (b : RadixBase) :
    ∀ (k1 k2 i : Nat), wseg b i (k1 + k2) = wseg b i k1 * wseg b (i + k1) k2
  | 0, k2, i => by simp [wseg]
  | k1 + 1, k2, i => by
      have hidx : k1 + 1 + k2 = (k1 + k2) + 1 := by omega
      rw [hidx]
      have h1 : wseg b i (k1 + k2 + 1)
          = 1 / (loopGet b.right 0 (i : Int) : Nat) * wseg b (i + 1) (k1 + k2) := rfl
      have h2 : wseg b i (k1 + 1)
          = 1 / (loopGet b.right 0 (i : Int) : Nat) * wseg b (i + 1) k1 := rfl
      rw [h1, wseg_add b k1 k2 (i + 1), h2]
      have hidx2 : i + 1 + k1 = i + (k1 + 1) := by omega
      rw [hidx2]
      ring

theorem fracVal_nil (b : RadixBase) (factor : Rat) (i : Nat) :
    fracVal b factor i [] = 0 := rfl

theorem fracVal_cons (b : RadixBase) (factor : Rat) (i : Nat) (x : Int)
    (t : List Int) :
    fracVal b factor i (x :: t)
      = factor / (loopGet b.right 0 (i : Int) : Nat) * x
        + fracVal b (factor / (loopGet b.right 0 (i : Int) : Nat)) (i + 1) t := rfl

theorem fracVal_append (b : RadixBase) :
    ∀ (l1 l2 : List Int) (factor : Rat) (i : Nat),
    fracVal b factor i (l1 ++ l2)
      = fracVal b factor i l1
        + fracVal b (factor * wseg b i l1.length) (i + l1.length) l2
  | [], l2, f, i => by simp [fracVal_nil, wseg]
  | x :: t, l2, f, i => by
      have hcons : (x :: t) ++ l2 = x :: (t ++ l2) := rfl
      rw [hcons, fracVal_cons, fracVal_append b t l2 _ (i + 1), fracVal_cons]
      have hf : f * wseg b i (x :: t).length
          = f / (loopGet b.right 0 (i : Int) : Nat) * wseg b (i + 1) t.length := by
        have h1 : wseg b i (t.length + 1)
            = 1 / (loopGet b.right 0 (i : Int) : Nat) * wseg b (i + 1) t.length := rfl
        simp only [List.length_cons]
        rw [h1]
        ring
      have hidx : i + (x :: t).length = i + 1 + t.length := by simp; omega
      rw [hf, hidx]
      ring

theorem fracVal_nonneg {b : RadixBase} (hb : WFBase b) :
    ∀ (l : List Int) (factor : Rat) (i : Nat), 0 ≤ factor → rightOK b i l →
      0 ≤ fracVal b factor i l
  | [], _, _, _, _ => le_refl 0
  | x :: t, f, i, hf, h => by
      rw [fracVal_cons]
      have hc := loopRight_cast_pos hb i
      have hf2 : (0 : Rat) ≤ f / (loopGet b.right 0 (i : Int) : Nat) :=
        div_nonneg hf hc.le
      have hx : (0 : Rat) ≤ (x : Rat) := by exact_mod_cast h.1.1
      exact add_nonneg (mul_nonneg hf2 hx) (fracVal_nonneg hb t _ (i + 1) hf2 h.2)

theorem fracVal_replicate_zero (b : RadixBase) :
    ∀ (n : Nat) (factor : Rat) (i : Nat),
      fracVal b factor i (List.replicate n 0) = 0
  | 0, _, _ => rfl
  | n + 1, f, i => by
      have h : List.replicate (n + 1) (0 : Int) = 0 :: List.replicate n 0 := rfl
      rw [h, fracVal_cons, fracVal_replicate_zero b n _ (i + 1)]
      simp

theorem leftOK_nonneg {b : RadixBase} :
    ∀ {l : List Int} {k : Nat}, leftOK b k l → ∀ x ∈ l, 0 ≤ x
  | [], _, _ => by intro x hx; simp at hx
  | y :: t, k, h => by
      intro x hx
      rcases List.mem_cons.mp hx with rfl | hx'
      · exact h.1.1
      · exact leftOK_nonneg h.2 x hx'

theorem intVal_nonneg (b : RadixBase) :
    ∀ (l : List Int) (factor : Rat) (i : Nat), 0 ≤ factor →
      (∀ x ∈ l, (0 : Int) ≤ x) → 0 ≤ intVal b factor i l
  | [], _, _, _, _ => le_refl 0
  | x :: t, f, i, hf, h => by
      have h1 : intVal b f i (x :: t)
          = f * x + intVal b (f * (loopGet b.left 0 (i : Int) : Nat)) (i + 1) t := rfl
      rw [h1]
      have hx : (0 : Rat) ≤ (x : Rat) := by exact_mod_cast h x (by simp)
      refine add_nonneg (mul_nonneg hf hx) ?_
      exact intVal_nonneg b t _ (i + 1)
        (mul_nonneg hf (Nat.cast_nonneg _)) (fun y hy => h y (by simp [hy]))

theorem baseGet_fracIdx (b : RadixBase) (i : Nat) :
    baseGet b ((i : Int) + 1) = loopGet b.right 0 (i : Int) := by
  unfold baseGet
  rw [if_neg (by omega)]
  have h : (i : Int) + 1 - 1 = (i : Int) := by omega
  rw [h]

theorem fracDigits_succ (b : RadixBase) (steps i : Nat) (f x : Rat) :
    fracDigits b (steps + 1) i f x
      = (pyInt (x / (f / (loopGet b.right 0 (i : Int) : Nat)))
          :: (fracDigits b steps (i + 1) (f / (loopGet b.right 0 (i : Int) : Nat))
            (x - pyInt (x / (f / (loopGet b.right 0 (i : Int) : Nat)))
              * (f / (loopGet b.right 0 (i : Int) : Nat)))).1,
        (fracDigits b steps (i + 1) (f / (loopGet b.right 0 (i : Int) : Nat))
            (x - pyInt (x / (f / (loopGet b.right 0 (i : Int) : Nat)))
              * (f / (loopGet b.right 0 (i : Int) : Nat)))).2.1,
        (fracDigits b steps (i + 1) (f / (loopGet b.right 0 (i : Int) : Nat))
            (x - pyInt (x / (f / (loopGet b.right 0 (i : Int) : Nat)))
              * (f / (loopGet b.right 0 (i : Int) : Nat)))).2.2) := rfl

theorem fracDigits_len (b : RadixBase) :
    ∀ (steps i : Nat) (f x : Rat), (fracDigits b steps i f x).1.length = steps
  | 0, _, _, _ => rfl
  | steps + 1, i, f, x => by
      rw [fracDigits_succ]
      simp only [List.length_cons]
      rw [fracDigits_len b steps (i + 1) _ _]

/-- Correctness of the fractional digit-extraction loop of `from_float`: the
digits are canonical fractional digits, the final factor is the input factor
scaled by the traversed weights, the residue stays within one final-factor
unit, and digits plus residue reconstruct the input exactly. -/
theorem fracDigits_spec {b : RadixBase} (hb : WFBase b) :
    ∀ (steps i : Nat) (factor x : Rat), 0 < factor → 0 ≤ x → x < factor →
    rightOK b i (fracDigits b steps i factor x).1
      ∧ (fracDigits b steps i factor x).2.1 = factor * wseg b i steps
      ∧ 0 ≤ (fracDigits b steps i factor x).2.2
      ∧ (fracDigits b steps i factor x).2.2 < (fracDigits b steps i factor x).2.1
      ∧ fracVal b factor i (fracDigits b steps i factor x).1
          + (fracDigits b steps i factor x).2.2 = x
  | 0, i, f, x => by
      intro hf hx0 hx1
      refine ⟨trivial, by simp [fracDigits, wseg], hx0, hx1, ?_⟩
      rw [show (fracDigits b 0 i f x).1 = [] from rfl, fracVal_nil]
      rw [show (fracDigits b 0 i f x).2.2 = x from rfl]
      ring
  | steps + 1, i, f, x => by
      intro hf hx0 hx1
      rw [fracDigits_succ]
      dsimp only
      have hc := loopRight_cast_pos hb (i : Int)
      have hf2 : (0 : Rat) < f / (loopGet b.right 0 (i : Int) : Nat) :=
        div_pos hf hc
      have hq0 : (0 : Rat) ≤ x / (f / (loopGet b.right 0 (i : Int) : Nat)) :=
        div_nonneg hx0 hf2.le
      have hd : pyInt (x / (f / (loopGet b.right 0 (i : Int) : Nat)))
          = ⌊x / (f / (loopGet b.right 0 (i : Int) : Nat))⌋ := pyInt_of_nonneg hq0
      have hfmul : f / (loopGet b.right 0 (i : Int) : Nat)
          * (loopGet b.right 0 (i : Int) : Nat) = f := div_mul_cancel₀ f hc.ne'
      have hqlt : x / (f / (loopGet b.right 0 (i : Int) : Nat))
          < ((loopGet b.right 0 (i : Int) : Nat) : Rat) := by
        rw [div_lt_iff hf2]
        calc x < f := hx1
        _ = f / (loopGet b.right 0 (i : Int) : Nat)
            * (loopGet b.right 0 (i : Int) : Nat) := hfmul.symm
        _ = ((loopGet b.right 0 (i : Int) : Nat) : Rat)
            * (f / (loopGet b.right 0 (i : Int) : Nat)) := by ring
      have hd0 : 0 ≤ pyInt (x / (f / (loopGet b.right 0 (i : Int) : Nat))) := by
        rw [hd]
        exact Int.floor_nonneg.mpr hq0
      have hdlt : pyInt (x / (f / (loopGet b.right 0 (i : Int) : Nat)))
          < ((loopGet b.right 0 (i : Int) : Nat) : Int) := by
        rw [hd]
        exact Int.floor_lt.mpr (by exact_mod_cast hqlt)
      have hx20 : 0 ≤ x - pyInt (x / (f / (loopGet b.right 0 (i : Int) : Nat)))
          * (f / (loopGet b.right 0 (i : Int) : Nat)) := by
        rw [hd]
        have := Int.floor_le (x / (f / (loopGet b.right 0 (i : Int) : Nat)))
        have h2 : (⌊x / (f / (loopGet b.right 0 (i : Int) : Nat))⌋ : Rat)
            * (f / (loopGet b.right 0 (i : Int) : Nat)) ≤ x := by
          rw [← le_div_iff hf2]
          exact this
        linarith
      have hx21 : x - pyInt (x / (f / (loopGet b.right 0 (i : Int) : Nat)))
          * (f / (loopGet b.right 0 (i : Int) : Nat))
          < f / (loopGet b.right 0 (i : Int) : Nat) := by
        rw [hd]
        have := Int.lt_floor_add_one (x / (f / (loopGet b.right 0 (i : Int) : Nat)))
        have h2 : x < (⌊x / (f / (loopGet b.right 0 (i : Int) : Nat))⌋ + 1 : Rat)
            * (f / (loopGet b.right 0 (i : Int) : Nat)) := by
          rw [← div_lt_iff hf2]
          exact_mod_cast this
        push_cast at h2 ⊢
        linarith
      have IH := fracDigits_spec hb steps (i + 1)
        (f / (loopGet b.right 0 (i : Int) : Nat))
        (x - pyInt (x / (f / (loopGet b.right 0 (i : Int) : Nat)))
          * (f / (loopGet b.right 0 (i : Int) : Nat))) hf2 hx20 hx21
      obtain ⟨ih1, ih2, ih3, ih4, ih5⟩ := IH
      refine ⟨⟨⟨hd0, ?_⟩, ih1⟩, ?_, ih3, ih4, ?_⟩
      · rw [baseGet_fracIdx]
        exact hdlt
      · rw [ih2]
        have h1 : wseg b i (steps + 1)
            = 1 / (loopGet b.right 0 (i : Int) : Nat) * wseg b (i + 1) steps := rfl
        rw [h1]
        ring
      · rw [fracVal_cons]
        linear_combination ih5

/-- The first `k` digit-extraction steps on an input below the `k`-step weight
produce zero digits and leave the input untouched. -/
theorem fracDigits_prefix_zero {b : RadixBase} (hb : WFBase b) :
    ∀ (k steps i : Nat) (factor x : Rat), k ≤ steps → 0 < factor → 0 ≤ x →
      x < factor * wseg b i k →
      fracDigits b steps i factor x
        = (List.replicate k 0
            ++ (fracDigits b (steps - k) (i + k) (factor * wseg b i k) x).1,
          (fracDigits b (steps - k) (i + k) (factor * wseg b i k) x).2)
  | 0, steps, i, f, x => by
      intro _ _ _ _
      simp [wseg]
  | k + 1, steps, i, f, x => by
      intro hk hf hx0 hx1
      obtain ⟨st, rfl⟩ : ∃ st, steps = st + 1 := ⟨steps - 1, by omega⟩
      rw [fracDigits_succ]
      have hc := loopRight_cast_pos hb (i : Int)
      have hf2 : (0 : Rat) < f / (loopGet b.right 0 (i : Int) : Nat) :=
        div_pos hf hc
      have hwk : f * wseg b i (k + 1)
          = f / (loopGet b.right 0 (i : Int) : Nat) * wseg b (i + 1) k := by
        have h1 : wseg b i (k + 1)
            = 1 / (loopGet b.right 0 (i : Int) : Nat) * wseg b (i + 1) k := rfl
        rw [h1]
        ring
      have hxf2 : x < f / (loopGet b.right 0 (i : Int) : Nat) := by
        calc x < f * wseg b i (k + 1) := hx1
        _ = f / (loopGet b.right 0 (i : Int) : Nat) * wseg b (i + 1) k := hwk
        _ ≤ f / (loopGet b.right 0 (i : Int) : Nat) * 1 := by
            exact mul_le_mul_of_nonneg_left (wseg_le_one hb k (i + 1)) hf2.le
        _ = f / (loopGet b.right 0 (i : Int) : Nat) := by ring
      have hd : pyInt (x / (f / (loopGet b.right 0 (i : Int) : Nat))) = 0 := by
        refine pyInt_of_unit (div_nonneg hx0 hf2.le) ?_
        rw [div_lt_one hf2]
        exact hxf2
      rw [hd]
      have hx2 : x - (0 : Int) * (f / (loopGet b.right 0 (i : Int) : Nat)) = x := by
        push_cast
        ring
      rw [hx2]
      have IH := fracDigits_prefix_zero hb k st (i + 1)
        (f / (loopGet b.right 0 (i : Int) : Nat)) x (by omega) hf2 hx0
        (by rw [← hwk]; exact hx1)
      rw [IH]
      have hidx : i + 1 + k = i + (k + 1) := by omega
      have hst : st - k = st + 1 - (k + 1) := by omega
      rw [hwk.symm, hidx, hst]
      rfl

theorem checkRange_emptyLeft (b : RadixBase) (r : List Int) (rem : Rat) (sg : Int)
    (hsg : sg = 1 ∨ sg = -1) :
    checkRange ⟨b, [], r, rem, sg⟩ = Except.ok () := by
  unfold checkRange
  rw [if_neg (not_not_intro (by tauto))]
  rfl

theorem checkRange_sign_flip {v : BasedReal} (hsg : v.sign = 1 ∨ v.sign = -1)
    (h : checkRange v = Except.ok ()) :
    checkRange ⟨v.base, v.left, v.right, v.remainder, -v.sign⟩ = Except.ok () := by
  unfold checkRange at h ⊢
  rw [if_neg (not_not_intro (by tauto))] at h
  rw [if_neg (not_not_intro (by rcases hsg with h1 | h1 <;> simp [h1]))]
  exact h

theorem newBR_id {b : RadixBase} {l r : List Int} {rem : Rat} {sg : Int}
    (hchk : checkRange ⟨b, l, r, rem, sg⟩ = Except.ok ())
    (htrim : leadZeros l = 0 ∨ l = [0]) (hne : l ≠ []) :
    newBR b l r rem sg = Except.ok ⟨b, l, r, rem, sg⟩ := by
  unfold newBR
  rw [hchk]
  simp only [Bind.bind, Except.bind]
  rcases htrim with h0 | h0
  · rw [if_pos h0]
    simp [List.isEmpty_iff, hne]
  · subst h0
    rw [if_neg (by decide)]
    have hdrop : ([(0 : Int)] : List Int).drop (leadZeros [0]) = [] := rfl
    have hsg : sg = 1 ∨ sg = -1 := by
      unfold checkRange at hchk
      by_cases h : sg = -1 ∨ sg = 1
      · tauto
      · rw [if_pos (by tauto)] at hchk
        simp at hchk
    rw [hdrop, checkRange_emptyLeft b r rem sg hsg]
    rfl

theorem newBR_emptyLeft (b : RadixBase) (r : List Int) (rem : Rat) (sg : Int)
    (hsg : sg = 1 ∨ sg = -1) :
    newBR b [] r rem sg = Except.ok ⟨b, [0], r, rem, sg⟩ := by
  unfold newBR
  rw [checkRange_emptyLeft b r rem sg hsg]
  rfl

theorem pyNeg_spec {v : BasedReal} (hsg : v.sign = 1 ∨ v.sign = -1)
    (hchk : checkRange v = Except.ok ())
    (htrim : leadZeros v.left = 0 ∨ v.left = [0]) (hne : v.left ≠ []) :
    pyNeg v = Except.ok ⟨v.base, v.left, v.right, v.remainder, -v.sign⟩ := by
  unfold pyNeg
  exact newBR_id (checkRange_sign_flip hsg hchk) htrim hne

theorem pySign_valid (q : Rat) : pySign q = 1 ∨ pySign q = -1 := by
  unfold pySign
  split
  · exact Or.inl rfl
  · split
    · exact Or.inr rfl
    · exact Or.inl rfl

theorem floatAtPos_natCast (b : RadixBase) (n : Nat) :
    floatAtPos b (n : Int) = weightFrac b n := by
  unfold floatAtPos
  by_cases h : (0 : Int) < (n : Int)
  · rw [if_pos h]
    have ht : ((n : Int)).toNat = n := by omega
    rw [ht]
  · rw [if_neg h]
    have hn : n = 0 := by omega
    subst hn
    rfl

theorem mul_pySign_abs (x : Rat) : x * (pySign x : Int) = |x| := by
  unfold pySign
  rcases lt_trichotomy x 0 with h | h | h
  · rw [if_neg (by linarith), if_pos h, abs_of_neg h]
    push_cast
    ring
  · subst h
    simp
  · rw [if_pos h, abs_of_pos h]
    push_cast
    ring

/-- `from_float` on an input of magnitude below one: the growth loop exits at
once, there are no integer digits (the integer part becomes `[0]`), and the
result is exactly the fractional extraction of `|x|`. -/
theorem fromFloat_small {b : RadixBase} (x : Rat) (hx : |x| < 1) (s : Nat) :
    fromFloat b x s
      = Except.ok ⟨b, [0], (fracDigits b s 0 1 |x|).1,
          (fracDigits b s 0 1 |x|).2.2 / (fracDigits b s 0 1 |x|).2.1, pySign x⟩ := by
  unfold fromFloat
  simp only [mul_pySign_abs]
  have hgrow : growPos b |x| (|x|.num.natAbs + 1) 0 1 = (0, 1) := by
    have h1 : ¬ ((1 : Nat) : Rat) ≤ |x| := by push_cast; linarith
    simp only [growPos, h1, if_false]
  rw [hgrow]
  have hint : intDigits b 0 0 1 |x| = ([], |x|) := rfl
  rw [hint]
  exact newBR_emptyLeft b _ _ _ (pySign_valid x)

theorem zeroBR_spec {b : RadixBase} (hb : WFBase b) (s : Nat) :
    zeroBR b s = Except.ok ⟨b, [0], List.replicate s 0, 0, 1⟩ := by
  unfold zeroBR
  rw [fromFloat_small 0 (by norm_num) s]
  have habs : |(0 : Rat)| = 0 := abs_zero
  rw [habs]
  have hfd : fracDigits b s 0 1 0
      = (List.replicate s 0 ++ (fracDigits b (s - s) (0 + s) (1 * wseg b 0 s) 0).1,
        (fracDigits b (s - s) (0 + s) (1 * wseg b 0 s) 0).2) :=
    fracDigits_prefix_zero hb s s 0 1 0 (le_refl s) one_pos (le_refl 0)
      (by rw [one_mul]; exact wseg_pos hb s 0)
  rw [hfd]
  have hss : s - s = 0 := by omega
  rw [hss]
  have h0 : fracDigits b 0 (0 + s) (1 * wseg b 0 s) 0 = ([], 1 * wseg b 0 s, 0) := rfl
  rw [h0]
  have hps : pySign 0 = 1 := rfl
  rw [hps]
  have hdiv : (([], 1 * wseg b 0 s, (0 : Rat)) : List Int × Rat × Rat).2.2
      / (([], 1 * wseg b 0 s, (0 : Rat)) : List Int × Rat × Rat).2.1 = 0 := by
    dsimp only
    rw [zero_div]
  rw [hdiv]
  simp

/-- `resize` to a not-smaller precision succeeds on a well-formed value and
only extends the fractional digits, the extension plus the new remainder
carrying exactly the value of the old remainder. -/
theorem resize_up {v : BasedReal} (hwf : WF v) (R : Nat) (hR : v.right.length ≤ R) :
    ∃ ext rem2,
      v.resize (R : Int) = Except.ok ⟨v.base, v.left, v.right ++ ext, rem2, v.sign⟩
      ∧ rightOK v.base v.right.length ext
      ∧ v.right.length + ext.length = R
      ∧ 0 ≤ rem2 ∧ rem2 < 1
      ∧ fracVal v.base (weightFrac v.base v.right.length) v.right.length ext
          + weightFrac v.base R * rem2
        = weightFrac v.base v.right.length * v.remainder := by
  obtain ⟨hb, hsg, hr0, hr1, hlok, hrok, htrim, hne, hchk⟩ := hwf
  by_cases hEq : (R : Int) = v.right.length
  · have hRe : R = v.right.length := by exact_mod_cast hEq
    refine ⟨[], v.remainder, ?_, trivial, by simp [hRe], hr0, hr1, ?_⟩
    · unfold BasedReal.resize
      rw [if_pos hEq, List.append_nil]
    · rw [hRe, fracVal_nil]
      ring
  · have hlt : v.right.length < R := by
      have hne2 : ¬ R = v.right.length := by exact_mod_cast hEq
      omega
    have hW := weightFrac_pos hb v.right.length
    have hW1 := weightFrac_le_one hb v.right.length
    have hrv0 : 0 ≤ weightFrac v.base v.right.length * v.remainder :=
      mul_nonneg hW.le hr0
    have hrvW : weightFrac v.base v.right.length * v.remainder
        < weightFrac v.base v.right.length := by
      calc weightFrac v.base v.right.length * v.remainder
          < weightFrac v.base v.right.length * 1 := mul_lt_mul_of_pos_left hr1 hW
      _ = weightFrac v.base v.right.length := by ring
    have habs : |(v.sign : Rat) * (floatAtPos v.base (v.right.length : Int)
        * v.remainder)| = weightFrac v.base v.right.length * v.remainder := by
      rw [floatAtPos_natCast, abs_mul]
      have h1 : |(v.sign : Rat)| = 1 := by
        rcases hsg with h | h <;> rw [h] <;> norm_num
      rw [h1, one_mul, abs_of_nonneg hrv0]
    have hds := fracDigits_prefix_zero hb v.right.length R 0 1
      (weightFrac v.base v.right.length * v.remainder) (by omega) one_pos hrv0
      (by rw [one_mul, ← weightFrac_eq_wseg]; exact hrvW)
    have h1w : (1 : Rat) * wseg v.base 0 v.right.length
        = weightFrac v.base v.right.length := by
      rw [one_mul, ← weightFrac_eq_wseg]
    rw [h1w] at hds
    have hz : (0 + v.right.length) = v.right.length := by omega
    rw [hz] at hds
    have hrest := fracDigits_spec hb (R - v.right.length) v.right.length
      (weightFrac v.base v.right.length)
      (weightFrac v.base v.right.length * v.remainder) hW hrv0 hrvW
    obtain ⟨hrok2, hff, hxr0, hxr1, hval⟩ := hrest
    have hffpos : 0 < (fracDigits v.base (R - v.right.length) v.right.length
        (weightFrac v.base v.right.length)
        (weightFrac v.base v.right.length * v.remainder)).2.1 := by
      rw [hff]
      exact mul_pos hW (wseg_pos hb _ _)
    have hffW : (fracDigits v.base (R - v.right.length) v.right.length
        (weightFrac v.base v.right.length)
        (weightFrac v.base v.right.length * v.remainder)).2.1
        = weightFrac v.base R := by
      rw [hff, weightFrac_eq_wseg, weightFrac_eq_wseg]
      have hsum : v.right.length + (R - v.right.length) = R := by omega
      calc wseg v.base 0 v.right.length * wseg v.base v.right.length (R - v.right.length)
          = wseg v.base 0 (v.right.length + (R - v.right.length)) := by
            rw [wseg_add, hz]
      _ = wseg v.base 0 R := by rw [hsum]
    refine ⟨(fracDigits v.base (R - v.right.length) v.right.length
        (weightFrac v.base v.right.length)
        (weightFrac v.base v.right.length * v.remainder)).1,
      (fracDigits v.base (R - v.right.length) v.right.length
        (weightFrac v.base v.right.length)
        (weightFrac v.base v.right.length * v.remainder)).2.2
        / (fracDigits v.base (R - v.right.length) v.right.length
          (weightFrac v.base v.right.length)
          (weightFrac v.base v.right.length * v.remainder)).2.1,
      ?_, hrok2, ?_, ?_, ?_, ?_⟩
    · simp only [BasedReal.resize]
      rw [if_neg hEq, if_pos (by exact_mod_cast hlt)]
      rw [fromFloat_small ((v.sign : Rat) * (floatAtPos v.base (v.right.length : Int)
        * v.remainder)) (by rw [habs]; exact lt_of_lt_of_le hrvW hW1) ((R : Int)).toNat]
      rw [habs]
      have htn : ((R : Int)).toNat = R := by omega
      rw [htn]
      simp only [Bind.bind, Except.bind]
      rw [hds]
      have hdrop : (List.replicate v.right.length (0 : Int)
          ++ (fracDigits v.base (R - v.right.length) v.right.length
            (weightFrac v.base v.right.length)
            (weightFrac v.base v.right.length * v.remainder)).1).drop v.right.length
          = (fracDigits v.base (R - v.right.length) v.right.length
            (weightFrac v.base v.right.length)
            (weightFrac v.base v.right.length * v.remainder)).1 :=
        List.drop_left' (by simp)
      rw [hdrop]
      exact newBR_id
        (by rw [checkRange_congr v.base v.left _ v.right _ v.remainder v.sign]
            exact hchk)
        htrim hne
    · rw [fracDigits_len]
      omega
    · exact div_nonneg hxr0 hffpos.le
    · rw [div_lt_one hffpos]
      exact hxr1
    · rw [hffW]
      have hxr : weightFrac v.base R
          * ((fracDigits v.base (R - v.right.length) v.right.length
            (weightFrac v.base v.right.length)
            (weightFrac v.base v.right.length * v.remainder)).2.2 / weightFrac v.base R)
          = (fracDigits v.base (R - v.right.length) v.right.length
            (weightFrac v.base v.right.length)
            (weightFrac v.base v.right.length * v.remainder)).2.2 := by
        rw [mul_div_cancel₀]
        exact (weightFrac_pos hb R).ne'
      rw [hxr]
      exact hval

theorem rightOK_nonneg {b : RadixBase} :
    ∀ {l : List Int} {j : Nat}, rightOK b j l → ∀ x ∈ l, 0 ≤ x
  | [], _, _ => by intro x hx; simp at hx
  | y :: t, j, h => by
      intro x hx
      rcases List.mem_cons.mp hx with rfl | hx'
      · exact h.1.1
      · exact rightOK_nonneg h.2 x hx'

theorem digits_nonneg {b : RadixBase} {v : BasedReal}
    (hl : leftOK b 0 v.left.reverse) (hr : rightOK b 0 v.right) :
    ∀ x ∈ (v.left ++ v.right).reverse, (0 : Int) ≤ x := by
  intro x hx
  rw [List.mem_reverse, List.mem_append] at hx
  rcases hx with hx | hx
  · exact leftOK_nonneg hl x (List.mem_reverse.mpr hx)
  · exact rightOK_nonneg hr x hx

theorem map_posAbs_id :
    ∀ {l : List Int}, (∀ x ∈ l, (0 : Int) ≤ x) →
      l.map (fun x => if x < 0 then -x else x) = l
  | [], _ => rfl
  | x :: t, h => by
      simp only [List.map_cons]
      rw [if_neg (by have := h x (by simp); omega),
        map_posAbs_id (fun y hy => h y (by simp [hy]))]

theorem leadZeros_replicate : ∀ n : Nat, leadZeros (List.replicate n 0) = n
  | 0 => rfl
  | n + 1 => by
      have h : List.replicate (n + 1) (0 : Int) = 0 :: List.replicate n 0 := rfl
      rw [h]
      simp [leadZeros, leadZeros_replicate n]

theorem chkRev_zeros (b : RadixBase) :
    ∀ (n i : Nat), chkRev b i (List.replicate n 0) = Except.ok ()
  | 0, _ => rfl
  | n + 1, i => by
      have h : List.replicate (n + 1) (0 : Int) = 0 :: List.replicate n 0 := rfl
      rw [h]
      simp only [chkRev]
      rw [if_neg (by have := Int.ofNat_nonneg (baseGet b (-(i : Int))); omega)]
      exact chkRev_zeros b n (i + 1)

theorem chkFwd_zeros (b : RadixBase) :
    ∀ (n i : Nat), chkFwd b i (List.replicate n 0) = Except.ok ()
  | 0, _ => rfl
  | n + 1, i => by
      have h : List.replicate (n + 1) (0 : Int) = 0 :: List.replicate n 0 := rfl
      rw [h]
      simp only [chkFwd]
      rw [if_neg (by have := Int.ofNat_nonneg (baseGet b ((i : Int) + 1)); omega)]
      exact chkFwd_zeros b n (i + 1)

theorem newBR_zeros (b : RadixBase) (n : Nat) (r : List Int) (rem : Rat) (sg : Int)
    (hsg : sg = 1 ∨ sg = -1) :
    newBR b (List.replicate (n + 1) 0) r rem sg = Except.ok ⟨b, [0], r, rem, sg⟩ := by
  unfold newBR
  have hchk : checkRange ⟨b, List.replicate (n + 1) 0, r, rem, sg⟩ = Except.ok () := by
    unfold checkRange
    rw [if_neg (not_not_intro (by tauto))]
    rw [show (List.replicate (n + 1) (0 : Int)).reverse = List.replicate (n + 1) 0
      by simp]
    rw [chkRev_zeros b (n + 1) 0]
    simp only [Bind.bind, Except.bind]
    exact chkFwd_zeros b (n + 1) 0
  rw [hchk]
  simp only [Bind.bind, Except.bind]
  rw [if_neg (by rw [leadZeros_replicate]; omega)]
  rw [leadZeros_replicate]
  rw [show (List.replicate (n + 1) (0 : Int)).drop (n + 1) = [] by simp]
  rw [checkRange_emptyLeft b r rem sg hsg]
  rfl

/-- The digits of a value, least significant first, are canonical cells of a
working array whose precision index equals the value's significance. -/
theorem digitsRev_NNBnd {b : RadixBase} (v : BasedReal)
    (hl : leftOK b 0 v.left.reverse) (hr : rightOK b 0 v.right) :
    NNBnd b (v.right.length : Int) 0 ((v.left ++ v.right).reverse) := by
  have hrev : (v.left ++ v.right).reverse = v.right.reverse ++ v.left.reverse := by
    simp
  rw [hrev]
  refine NNBnd_append ?_ ?_
  · exact rightOK_rev_NNBnd v.right 0 0 (by simp) hr
  · refine leftOK_NNBnd v.left.reverse 0 (0 + v.right.reverse.length) ?_ hl
    simp

/-- Successful construction rebuilds exactly the trimmed-and-padded integer
digits; all other fields are the arguments. -/
theorem newBR_ok_left {b : RadixBase} {l r : List Int} {rem : Rat} {sg : Int}
    {v : BasedReal} (h : newBR b l r rem sg = Except.ok v) :
    v = ⟨b, if (l.drop (leadZeros l)).isEmpty then [0] else l.drop (leadZeros l),
      r, rem, sg⟩ := by
  unfold newBR at h
  cases hc : checkRange ⟨b, l, r, rem, sg⟩ with
  | error e => rw [hc] at h; simp [Bind.bind, Except.bind] at h
  | ok u =>
    rw [hc] at h
    simp only [Bind.bind, Except.bind] at h
    by_cases hz : leadZeros l = 0
    · rw [if_pos hz] at h
      have := (Except.ok.injEq _ _).mp h
      rw [← this, hz, List.drop_zero]
    · rw [if_neg hz] at h
      cases hc2 : checkRange ⟨b, l.drop (leadZeros l), r, rem, sg⟩ with
      | error e => rw [hc2] at h; simp [Bind.bind, Except.bind] at h
      | ok u2 =>
        rw [hc2] at h
        simp only [Bind.bind, Except.bind] at h
        have := (Except.ok.injEq _ _).mp h
        rw [← this]

theorem toFloat_sign_flip (b : RadixBase) (l r : List Int) (rem : Rat) (sg : Int) :
    BasedReal.toFloat ⟨b, l, r, rem, -sg⟩ = -BasedReal.toFloat ⟨b, l, r, rem, sg⟩ := by
  unfold BasedReal.toFloat
  push_cast
  ring

theorem toFloat_unsigned_nonneg {v : BasedReal} (hb : WFBase v.base)
    (hl : leftOK v.base 0 v.left.reverse) (hr : rightOK v.base 0 v.right)
    (hrem : 0 ≤ v.remainder) :
    0 ≤ intVal v.base 1 0 v.left.reverse + fracVal v.base 1 0 v.right
      + weightFrac v.base v.right.length * v.remainder := by
  have h1 := intVal_nonneg v.base v.left.reverse 1 0 (by norm_num)
    (leftOK_nonneg hl)
  have h2 := fracVal_nonneg hb v.right 1 0 (by norm_num) hr
  have h3 := mul_nonneg (weightFrac_pos hb v.right.length).le hrem
  linarith

theorem toFloat_abs {v : BasedReal} (hb : WFBase v.base)
    (hsg : v.sign = 1 ∨ v.sign = -1)
    (hl : leftOK v.base 0 v.left.reverse) (hr : rightOK v.base 0 v.right)
    (hrem : 0 ≤ v.remainder) :
    |v.toFloat| = intVal v.base 1 0 v.left.reverse + fracVal v.base 1 0 v.right
      + weightFrac v.base v.right.length * v.remainder := by
  have hU := toFloat_unsigned_nonneg hb hl hr hrem
  have ht : v.toFloat = (intVal v.base 1 0 v.left.reverse + fracVal v.base 1 0 v.right
      + weightFrac v.base v.right.length * v.remainder) * v.sign := rfl
  rcases hsg with h | h
  · rw [ht, h]
    push_cast
    rw [mul_one, abs_of_nonneg hU]
  · rw [ht, h]
    push_cast
    rw [abs_of_nonpos (by linarith)]
    ring

/-- `__abs__` on a well-formed value succeeds and its float value is the
absolute float value. -/
theorem pyAbs_run (v : BasedReal) (hb : WFBase v.base)
    (hsg : v.sign = 1 ∨ v.sign = -1) (hchk : checkRange v = Except.ok ())
    (htrim : leadZeros v.left = 0 ∨ v.left = [0]) (hne : v.left ≠ [])
    (hl : leftOK v.base 0 v.left.reverse) (hr : rightOK v.base 0 v.right)
    (hrem : 0 ≤ v.remainder) :
    ∃ av, pyAbs v = Except.ok av ∧ av.toFloat = |v.toFloat| := by
  unfold pyAbs
  rcases hsg with h | h
  · rw [if_pos (by omega)]
    refine ⟨v, rfl, ?_⟩
    rw [toFloat_abs hb (Or.inl h) hl hr hrem]
    conv_lhs => rw [show v = ⟨v.base, v.left, v.right, v.remainder, v.sign⟩ from rfl]
    unfold BasedReal.toFloat
    rw [h]
    push_cast
    ring
  · rw [if_neg (by omega)]
    rw [pyNeg_spec (Or.inr h) hchk htrim hne]
    refine ⟨_, rfl, ?_⟩
    rw [toFloat_abs hb (Or.inr h) hl hr hrem]
    have hfl : BasedReal.toFloat ⟨v.base, v.left, v.right, v.remainder, -v.sign⟩
        = (intVal v.base 1 0 v.left.reverse + fracVal v.base 1 0 v.right
          + weightFrac v.base v.right.length * v.remainder) * (-v.sign : Int) := rfl
    rw [hfl, h]
    push_cast
    ring

/-- Extending the fractional digits as `resize` does (appending digits whose
value plus the rescaled new remainder reproduces the old weighted remainder)
does not change the float value. -/
theorem toFloat_ext {v : BasedReal} {R : Nat} {ext : List Int} {rem2 : Rat}
    (hlen : v.right.length + ext.length = R)
    (hval : fracVal v.base (weightFrac v.base v.right.length) v.right.length ext
        + weightFrac v.base R * rem2
      = weightFrac v.base v.right.length * v.remainder) :
    BasedReal.toFloat ⟨v.base, v.left, v.right ++ ext, rem2, v.sign⟩ = v.toFloat := by
  have hL : BasedReal.toFloat ⟨v.base, v.left, v.right ++ ext, rem2, v.sign⟩
      = (intVal v.base 1 0 v.left.reverse + fracVal v.base 1 0 (v.right ++ ext)
        + weightFrac v.base (v.right ++ ext).length * rem2) * v.sign := rfl
  have hR : v.toFloat
      = (intVal v.base 1 0 v.left.reverse + fracVal v.base 1 0 v.right
        + weightFrac v.base v.right.length * v.remainder) * v.sign := rfl
  rw [hL, hR, fracVal_append]
  rw [List.length_append, hlen]
  rw [one_mul, zero_add, ← weightFrac_eq_wseg]
  linear_combination (v.sign : Rat) * hval

theorem resize_self (v : BasedReal) :
    v.resize (v.right.length : Int) = Except.ok v := by
  unfold BasedReal.resize
  rw [if_pos rfl]

theorem NNBnd_BndAdds {b : RadixBase} (hb : WFBase b) {mr : Int} :
    ∀ {l : List Int} {i : Nat}, NNBnd b mr i l → BndAdds b mr i l
  | [], _, _ => trivial
  | x :: t, i, h => by
      have hF := two_le_baseGetZ hb (mr - (i : Int))
      exact ⟨⟨by have := h.1.1; omega, h.1.2⟩, NNBnd_BndAdds hb h.2⟩

theorem CanonBut_head {b : RadixBase} {mr : Int} {i : Nat} {x : Int} {t : List Int}
    (h : CanonBut b mr i (x :: t)) (ht : t ≠ []) :
    0 ≤ x ∧ x < (baseGet b (mr - (i : Int)) : Int) := by
  cases t with
  | nil => exact absurd rfl ht
  | cons y t' => exact h.1

theorem CanonBut_tail {b : RadixBase} {mr : Int} {i : Nat} {x : Int} {t : List Int}
    (h : CanonBut b mr i (x :: t)) : CanonBut b mr (i + 1) t := by
  cases t with
  | nil => trivial
  | cons y t' => exact h.2

theorem toAddVec_length (v : BasedReal) (n : Nat)
    (h : (v.left ++ v.right).length + 1 ≤ n) : (toAddVec v n).length = n - 1 := by
  simp only [List.length_append] at h
  unfold toAddVec
  simp only [List.length_append, List.length_map, List.length_reverse,
    List.length_replicate]
  omega

theorem valF_map_opp (b : RadixBase) (mr : Int) :
    ∀ (D : List Int) (i : Nat),
      valF b mr i (D.map (fun x => (-1) * x))
        + valF b mr i (D.map (fun x => (1 : Int) * x)) = 0
  | [], _ => by simp [valF_nil]
  | x :: t, i => by
      simp only [List.map_cons]
      rw [valF_cons, valF_cons]
      have ih := valF_map_opp b mr t (i + 1)
      linear_combination (baseGet b (mr - (i : Int)) : Int) * ih

/-- The conditional negation step of `__add__` (`va = -va if sign < 0`), run
on a well-formed value, produces the value with its sign conditionally
flipped. -/
theorem signedRun (v : BasedReal) (hsg : v.sign = 1 ∨ v.sign = -1)
    (hchk : checkRange v = Except.ok ())
    (htrim : leadZeros v.left = 0 ∨ v.left = [0]) (hne : v.left ≠ []) (sg : Int) :
    (if sg < 0 then pyNeg v else Except.ok v)
      = Except.ok ⟨v.base, v.left, v.right, v.remainder,
          if sg < 0 then -v.sign else v.sign⟩ := by
  by_cases h : sg < 0
  · rw [if_pos h, if_pos h]
    exact pyNeg_spec hsg hchk htrim hne
  · rw [if_neg h, if_neg h]

/-- Two carry passes over a zero buffer seeded with `c` produce a buffer of
the same length, canonical except in the top cell, carrying the exact value
`c + value X + value Y`. -/
theorem runAdd_two {b : RadixBase} (hb : WFBase b) (R : Nat) (c : Int) (N : Nat)
    (X Y : List Int)
    (hX : BndAdds b (R : Int) 0 X) (hY : BndAdds b (R : Int) 0 Y)
    (hXl : X.length = N) (hYl : Y.length = N) (hc : -1 ≤ c ∧ c ≤ 1) :
    (runAdd b R 0 (runAdd b R 0 (c :: List.replicate N 0) X) Y).length = N + 1
      ∧ CanonBut b (R : Int) 0
          (runAdd b R 0 (runAdd b R 0 (c :: List.replicate N 0) X) Y)
      ∧ valF b (R : Int) 0
          (runAdd b R 0 (runAdd b R 0 (c :: List.replicate N 0) X) Y)
        = c + valF b (R : Int) 0 X + valF b (R : Int) 0 Y := by
  rcases Nat.eq_zero_or_pos N with hN | hN
  · subst hN
    have hXe : X = [] := List.length_eq_zero.mp hXl
    have hYe : Y = [] := List.length_eq_zero.mp hYl
    subst hXe
    subst hYe
    refine ⟨rfl, trivial, ?_⟩
    show valF b (R : Int) 0 [c] = c + valF b (R : Int) 0 [] + valF b (R : Int) 0 []
    rw [valF_cons, valF_nil, valF_nil]
    ring
  · have hF0 := two_le_baseGetZ hb ((R : Int) - ((0 : Nat) : Int))
    obtain ⟨hA1, hA2, hA3⟩ := runAdd_go hb X (List.replicate N 0) 0 c
      (by simp [hXl]) hX (fun _ => ⟨hc.1, by omega⟩) (CanonBut_replicate hb N 1)
    simp only [List.length_replicate] at hA1
    obtain ⟨a0, A', hAeq⟩ : ∃ a0 A',
        runAdd b R 0 (c :: List.replicate N 0) X = a0 :: A' := by
      cases hA : runAdd b R 0 (c :: List.replicate N 0) X with
      | nil => rw [hA] at hA1; simp at hA1
      | cons a0 A' => exact ⟨a0, A', rfl⟩
    have hA'len : A'.length = N := by
      rw [hAeq] at hA1
      simpa using hA1
    have hA'ne : A' ≠ [] := by
      intro hh
      rw [hh] at hA'len
      simp at hA'len
      omega
    have hhead := CanonBut_head (hAeq ▸ hA2) hA'ne
    have htail := CanonBut_tail (hAeq ▸ hA2)
    obtain ⟨hB1, hB2, hB3⟩ := runAdd_go hb Y A' 0 a0 (by rw [hA'len, hYl]) hY
      (fun _ => ⟨by have := hhead.1; omega, hhead.2.le⟩) htail
    rw [hAeq]
    refine ⟨by rw [hB1, hA'len], hB2, ?_⟩
    rw [hB3, ← hAeq, hA3, valF_cons, valF_replicate]
    ring

/-- The two carry passes of `__add__` commute. -/
theorem runAdd_swap {b : RadixBase} (hb : WFBase b) (R : Nat) (c : Int) (N : Nat)
    (X Y : List Int)
    (hX : BndAdds b (R : Int) 0 X) (hY : BndAdds b (R : Int) 0 Y)
    (hXl : X.length = N) (hYl : Y.length = N) (hc : -1 ≤ c ∧ c ≤ 1) :
    runAdd b R 0 (runAdd b R 0 (c :: List.replicate N 0) X) Y
      = runAdd b R 0 (runAdd b R 0 (c :: List.replicate N 0) Y) X := by
  obtain ⟨l1, c1, v1⟩ := runAdd_two hb R c N X Y hX hY hXl hYl hc
  obtain ⟨l2, c2, v2⟩ := runAdd_two hb R c N Y X hY hX hYl hXl hc
  exact canon_unique hb _ _ 0 (by rw [l1, l2]) c1 c2 (by rw [v1, v2]; ring)

/-- Unfolding `addSame` once each monadic step's result is known: the
remainder of the computation is the pure tail `addTail`. -/
theorem addSame_eval {a bb va vb ava avb va2 vb2 : BasedReal}
    (h1 : a.resize ((max a.right.length bb.right.length : Nat) : Int) = Except.ok va)
    (h2 : bb.resize ((max a.right.length bb.right.length : Nat) : Int) = Except.ok vb)
    (h3 : pyAbs va = Except.ok ava) (h4 : pyAbs vb = Except.ok avb)
    (h5 : (if (if avb.toFloat < ava.toFloat then va.sign else vb.sign) < 0
        then pyNeg va else Except.ok va) = Except.ok va2)
    (h6 : (if (if avb.toFloat < ava.toFloat then va.sign else vb.sign) < 0
        then pyNeg vb else Except.ok vb) = Except.ok vb2) :
    addSame a bb = addTail a.base (max a.right.length bb.right.length)
      (max a.left.length bb.left.length)
      (if avb.toFloat < ava.toFloat then va.sign else vb.sign) va2 vb2 := by
  simp only [addSame, addTail, Bind.bind]
  rw [h1]
  simp only [Except.bind]
  rw [h2]
  simp only [Except.bind]
  rw [h3]
  simp only [Except.bind]
  rw [h4]
  simp only [Except.bind]
  by_cases hcnd : (if avb.toFloat < ava.toFloat then va.sign else vb.sign) < 0
  · rw [if_pos hcnd] at h5 h6 ⊢
    rw [h5]
    simp only [Except.bind]
    rw [h6]
    simp only [Except.bind]
    rw [if_pos hcnd]
  · rw [if_neg hcnd] at h5 h6 ⊢
    have hva := Except.ok.inj h5
    have hvb := Except.ok.inj h6
    rw [if_neg hcnd, ← hva, ← hvb]

/-- The pure tail of `__add__` is symmetric in the two sign-adjusted operands
once the result sign has been fixed. -/
theorem addTail_comm {b : RadixBase} (hb : WFBase b) {R : Nat} (ml : Nat) (sg : Int)
    {x y : BasedReal}
    (hsx : x.sign = 1 ∨ x.sign = -1) (hsy : y.sign = 1 ∨ y.sign = -1)
    (hlx : leftOK b 0 x.left.reverse) (hrx : rightOK b 0 x.right)
    (hly : leftOK b 0 y.left.reverse) (hry : rightOK b 0 y.right)
    (hRx : x.right.length = R) (hRy : y.right.length = R)
    (hmx0 : 0 ≤ x.remainder) (hmx1 : x.remainder < 1)
    (hmy0 : 0 ≤ y.remainder) (hmy1 : y.remainder < 1) :
    addTail b R ml sg x y = addTail b R ml sg y x := by
  simp only [addTail]
  rw [add_comm (y.remainder * (y.sign : Rat)) (x.remainder * (x.sign : Rat))]
  rw [Nat.max_comm (y.left ++ y.right).length (x.left ++ x.right).length]
  set N := max (x.left ++ x.right).length (y.left ++ y.right).length with hN
  simp only [List.length_cons, List.length_replicate]
  have hx1 : -1 < x.remainder * (x.sign : Rat) ∧ x.remainder * (x.sign : Rat) < 1 := by
    rcases hsx with h | h <;> rw [h] <;> push_cast <;> constructor <;> linarith
  have hy1 : -1 < y.remainder * (y.sign : Rat) ∧ y.remainder * (y.sign : Rat) < 1 := by
    rcases hsy with h | h <;> rw [h] <;> push_cast <;> constructor <;> linarith
  have hc : -1 ≤ pyInt (x.remainder * (x.sign : Rat) + y.remainder * (y.sign : Rat))
      ∧ pyInt (x.remainder * (x.sign : Rat) + y.remainder * (y.sign : Rat)) ≤ 1 :=
    pyInt_bounds (by linarith [hx1.1, hy1.1]) (by linarith [hx1.2, hy1.2])
  have hbx : BndAdds b (R : Int) 0 (toAddVec x (N + 1)) := by
    have h := toAddVec_bnd hb x hsx hlx hrx (N + 1)
    rwa [hRx] at h
  have hby : BndAdds b (R : Int) 0 (toAddVec y (N + 1)) := by
    have h := toAddVec_bnd hb y hsy hly hry (N + 1)
    rwa [hRy] at h
  have hnx : (x.left ++ x.right).length ≤ N := le_max_left _ _
  have hny : (y.left ++ y.right).length ≤ N := le_max_right _ _
  have hlx' : (toAddVec x (N + 1)).length = N := by
    rw [toAddVec_length x (N + 1) (by omega)]
    omega
  have hly' : (toAddVec y (N + 1)).length = N := by
    rw [toAddVec_length y (N + 1) (by omega)]
    omega
  rw [runAdd_swap hb R _ N (toAddVec x (N + 1)) (toAddVec y (N + 1))
    hbx hby hlx' hly' hc]

/-- Adding the zero value of matching precision: the pure tail reduces to
rebuilding the value's own digits behind a fresh leading zero. -/
theorem addTail_zero {b : RadixBase} (hb : WFBase b) (v : BasedReal) (sz sg : Int)
    (hv1 : v.sign = 1)
    (hlv : leftOK b 0 v.left.reverse) (hrv : rightOK b 0 v.right)
    (hm0 : 0 ≤ v.remainder) (hm1 : v.remainder < 1) (hne : v.left ≠ []) :
    addTail b v.right.length v.left.length sg v
        ⟨b, [0], List.replicate v.right.length 0, 0, sz⟩
      = newBR b (0 :: v.left) v.right v.remainder sg := by
  have hla : 0 < v.left.length := List.length_pos.mpr hne
  simp only [addTail]
  have e0 : v.remainder * (v.sign : Rat) + 0 * (sz : Rat) = v.remainder := by
    rw [hv1]; push_cast; ring
  rw [e0]
  rw [pyInt_of_unit hm0 hm1]
  rw [Int.cast_zero, sub_zero]
  simp only [List.length_append, List.length_cons, List.length_replicate,
    List.length_nil]
  rw [show (v.left.length + v.right.length) ⊔ (0 + 1 + v.right.length)
      = v.left.length + v.right.length by omega]
  have hT1 : toAddVec v (v.left.length + v.right.length + 1)
      = (v.left ++ v.right).reverse := by
    unfold toAddVec
    rw [show v.left.length + v.right.length + 1 - (v.left ++ v.right).length - 1 = 0 by
      rw [List.length_append]; omega]
    rw [hv1]
    simp
  have hT2 : toAddVec ⟨b, [0], List.replicate v.right.length 0, 0, sz⟩
        (v.left.length + v.right.length + 1)
      = List.replicate (v.left.length + v.right.length) 0 := by
    unfold toAddVec
    dsimp only
    rw [show ([0] : List Int) ++ List.replicate v.right.length 0
        = List.replicate (v.right.length + 1) 0 by simp [List.replicate_succ]]
    rw [List.reverse_replicate, List.map_replicate, mul_zero, List.length_replicate]
    rw [show v.left.length + v.right.length + 1 - (v.right.length + 1) - 1
        = v.left.length - 1 by omega]
    rw [← List.replicate_add]
    rw [show v.right.length + 1 + (v.left.length - 1)
        = v.left.length + v.right.length by omega]
  rw [hT1, hT2]
  have hD : NNBnd b (v.right.length : Int) 0 ((v.left ++ v.right).reverse) :=
    digitsRev_NNBnd v hlv hrv
  obtain ⟨hL2, hC2, hV2⟩ := runAdd_two hb v.right.length 0
    (v.left.length + v.right.length) ((v.left ++ v.right).reverse)
    (List.replicate (v.left.length + v.right.length) 0)
    (NNBnd_BndAdds hb hD) (BndAdds_replicate hb _ 0)
    (by simp only [List.length_reverse, List.length_append])
    (by simp) ⟨by norm_num, by norm_num⟩
  have hA2 : runAdd b v.right.length 0
        (runAdd b v.right.length 0
          ((0 : Int) :: List.replicate (v.left.length + v.right.length) 0)
          ((v.left ++ v.right).reverse))
        (List.replicate (v.left.length + v.right.length) 0)
      = (v.left ++ v.right).reverse ++ [0] := by
    refine canon_unique hb _ _ 0 ?_ hC2 (NNBnd_CanonBut_top 0 hD) ?_
    · rw [hL2]
      simp only [List.length_append, List.length_reverse, List.length_cons,
        List.length_nil]
    · rw [hV2, valF_replicate, valF_append_zero]
      simp
  rw [hA2]
  have hrev : ((v.left ++ v.right).reverse ++ ([0] : List Int)).reverse
      = (0 : Int) :: (v.left ++ v.right) := by simp
  rw [hrev]
  have hnn : ∀ x ∈ (0 : Int) :: (v.left ++ v.right), (0 : Int) ≤ x := by
    intro x hx
    rcases List.mem_cons.mp hx with rfl | hx'
    · exact le_refl 0
    · exact digits_nonneg hlv hrv x (List.mem_reverse.mpr hx')
  rw [map_posAbs_id hnn]
  rw [List.take_succ_cons, List.drop_succ_cons, List.take_left' rfl,
    List.drop_left' rfl]

/-- Adding a value to its own negation: the pure tail reduces to rebuilding
an all-zero digit array with remainder zero. -/
theorem addTail_negself {b : RadixBase} (hb : WFBase b) (l r : List Int)
    (m : Rat) (sg : Int)
    (hl : leftOK b 0 l.reverse) (hr : rightOK b 0 r)
    (hm0 : 0 ≤ m) (hm1 : m < 1) (hne : l ≠ []) :
    addTail b r.length l.length sg ⟨b, l, r, m, -1⟩ ⟨b, l, r, m, 1⟩
      = newBR b (List.replicate (l.length + 1) 0) (List.replicate r.length 0) 0 sg := by
  simp only [addTail]
  have e0 : m * ((-1 : Int) : Rat) + m * ((1 : Int) : Rat) = 0 := by push_cast; ring
  rw [e0]
  rw [pyInt_of_unit (le_refl 0) one_pos]
  rw [Int.cast_zero, sub_zero]
  rw [Nat.max_self]
  simp only [List.length_cons, List.length_replicate]
  have hT1 : toAddVec ⟨b, l, r, m, -1⟩ ((l ++ r).length + 1)
      = (l ++ r).reverse.map (fun x => (-1) * x) := by
    unfold toAddVec
    dsimp only
    rw [show (l ++ r).length + 1 - (l ++ r).length - 1 = 0 by omega]
    simp
  have hT2 : toAddVec ⟨b, l, r, m, 1⟩ ((l ++ r).length + 1)
      = (l ++ r).reverse.map (fun x => (1 : Int) * x) := by
    unfold toAddVec
    dsimp only
    rw [show (l ++ r).length + 1 - (l ++ r).length - 1 = 0 by omega]
    simp
  rw [hT1, hT2]
  have hD : NNBnd b (r.length : Int) 0 ((l ++ r).reverse) :=
    digitsRev_NNBnd ⟨b, l, r, m, -1⟩ hl hr
  have hX : BndAdds b (r.length : Int) 0 ((l ++ r).reverse.map (fun x => (-1) * x)) :=
    BndAdds_map_sign (Or.inr rfl) hD
  have hY : BndAdds b (r.length : Int) 0 ((l ++ r).reverse.map (fun x => (1 : Int) * x)) :=
    BndAdds_map_sign (Or.inl rfl) hD
  obtain ⟨hL2, hC2, hV2⟩ := runAdd_two hb r.length 0 (l ++ r).length
    ((l ++ r).reverse.map (fun x => (-1) * x))
    ((l ++ r).reverse.map (fun x => (1 : Int) * x))
    hX hY (by simp only [List.length_map, List.length_reverse])
    (by simp only [List.length_map, List.length_reverse])
    ⟨by norm_num, by norm_num⟩
  have hA2 : runAdd b r.length 0
        (runAdd b r.length 0 ((0 : Int) :: List.replicate (l ++ r).length 0)
          ((l ++ r).reverse.map (fun x => (-1) * x)))
        ((l ++ r).reverse.map (fun x => (1 : Int) * x))
      = List.replicate ((l ++ r).length + 1) 0 := by
    refine canon_unique hb _ _ 0 ?_ hC2 (CanonBut_replicate hb _ 0) ?_
    · rw [hL2]
      simp
    · rw [hV2, valF_replicate]
      have hvo := valF_map_opp b (r.length : Int) ((l ++ r).reverse) 0
      linarith
  rw [hA2]
  rw [List.reverse_replicate]
  have hmap : List.map (fun z => if z < 0 then -z else z)
        (List.replicate ((l ++ r).length + 1) (0 : Int))
      = List.replicate ((l ++ r).length + 1) 0 := by
    rw [List.map_replicate]
    norm_num
  rw [hmap]
  rw [List.take_replicate, List.drop_replicate]
  rw [show min (l.length + 1) ((l ++ r).length + 1) = l.length + 1 by
    rw [List.length_append]; omega]
  rw [show (l ++ r).length + 1 - (l.length + 1) = r.length by
    rw [List.length_append]; omega]

/-- `__add__` commutes on well-formed same-base operands whenever the two
signs agree or the magnitudes differ (the code picks the second operand's
sign on a magnitude tie). -/
theorem add_comm_wf {a bb : BasedReal} (hwa : WF a) (hwb : WF bb)
    (hbase : a.base = bb.base)
    (hguard : a.sign = bb.sign ∨ |a.toFloat| ≠ |bb.toFloat|) :
    a.add bb = bb.add a := by
  have hca := hwa
  obtain ⟨hba, hsga, hra0, hra1, hlaOK, hraOK, hta, hnea, hcka⟩ := hca
  have hcb := hwb
  obtain ⟨hbb2, hsgb, hrb0, hrb1, hlbOK, hrbOK, htb, hneb, hckb⟩ := hcb
  unfold BasedReal.add
  rw [if_pos hbase, if_pos hbase.symm]
  obtain ⟨exta, rema2, hres_a, hextaOK, hlena, hrema0, hrema1, hvala⟩ :=
    resize_up hwa (max a.right.length bb.right.length) (le_max_left _ _)
  obtain ⟨extb, remb2, hres_b, hextbOK, hlenb, hremb0, hremb1, hvalb⟩ :=
    resize_up hwb (max a.right.length bb.right.length) (le_max_right _ _)
  have hchkA : checkRange ⟨a.base, a.left, a.right ++ exta, rema2, a.sign⟩
      = Except.ok () := hcka
  have hchkB : checkRange ⟨bb.base, bb.left, bb.right ++ extb, remb2, bb.sign⟩
      = Except.ok () := hckb
  have hrOKA : rightOK a.base 0 (a.right ++ exta) :=
    rightOK_append hraOK (by rw [Nat.zero_add]; exact hextaOK)
  have hrOKB : rightOK bb.base 0 (bb.right ++ extb) :=
    rightOK_append hrbOK (by rw [Nat.zero_add]; exact hextbOK)
  obtain ⟨ava, hava, havaF⟩ := pyAbs_run
    ⟨a.base, a.left, a.right ++ exta, rema2, a.sign⟩
    hba hsga hchkA hta hnea hlaOK hrOKA hrema0
  obtain ⟨avb, havb, havbF⟩ := pyAbs_run
    ⟨bb.base, bb.left, bb.right ++ extb, remb2, bb.sign⟩
    hbb2 hsgb hchkB htb hneb hlbOK hrOKB hremb0
  have hfva : BasedReal.toFloat ⟨a.base, a.left, a.right ++ exta, rema2, a.sign⟩
      = a.toFloat := toFloat_ext hlena hvala
  have hfvb : BasedReal.toFloat ⟨bb.base, bb.left, bb.right ++ extb, remb2, bb.sign⟩
      = bb.toFloat := toFloat_ext hlenb hvalb
  rw [hfva] at havaF
  rw [hfvb] at havbF
  have hsg_swap : (if ava.toFloat < avb.toFloat
        then (⟨bb.base, bb.left, bb.right ++ extb, remb2, bb.sign⟩ : BasedReal).sign
        else (⟨a.base, a.left, a.right ++ exta, rema2, a.sign⟩ : BasedReal).sign)
      = (if avb.toFloat < ava.toFloat
        then (⟨a.base, a.left, a.right ++ exta, rema2, a.sign⟩ : BasedReal).sign
        else (⟨bb.base, bb.left, bb.right ++ extb, remb2, bb.sign⟩ : BasedReal).sign) := by
    show (if ava.toFloat < avb.toFloat then bb.sign else a.sign)
        = (if avb.toFloat < ava.toFloat then a.sign else bb.sign)
    rcases hguard with heq | hne2
    · rw [heq, ite_self, ite_self]
    · rw [havaF, havbF]
      rcases lt_trichotomy |a.toFloat| |bb.toFloat| with h | h | h
      · rw [if_pos h, if_neg (lt_asymm h)]
      · exact absurd h hne2
      · rw [if_neg (lt_asymm h), if_pos h]
  have h5L := signedRun ⟨a.base, a.left, a.right ++ exta, rema2, a.sign⟩
    hsga hchkA hta hnea
    (if avb.toFloat < ava.toFloat
      then (⟨a.base, a.left, a.right ++ exta, rema2, a.sign⟩ : BasedReal).sign
      else (⟨bb.base, bb.left, bb.right ++ extb, remb2, bb.sign⟩ : BasedReal).sign)
  have h6L := signedRun ⟨bb.base, bb.left, bb.right ++ extb, remb2, bb.sign⟩
    hsgb hchkB htb hneb
    (if avb.toFloat < ava.toFloat
      then (⟨a.base, a.left, a.right ++ exta, rema2, a.sign⟩ : BasedReal).sign
      else (⟨bb.base, bb.left, bb.right ++ extb, remb2, bb.sign⟩ : BasedReal).sign)
  have h5S : (if (if ava.toFloat < avb.toFloat
        then (⟨bb.base, bb.left, bb.right ++ extb, remb2, bb.sign⟩ : BasedReal).sign
        else (⟨a.base, a.left, a.right ++ exta, rema2, a.sign⟩ : BasedReal).sign) < 0
      then pyNeg ⟨bb.base, bb.left, bb.right ++ extb, remb2, bb.sign⟩
      else Except.ok ⟨bb.base, bb.left, bb.right ++ extb, remb2, bb.sign⟩)
      = Except.ok ⟨bb.base, bb.left, bb.right ++ extb, remb2,
          if (if avb.toFloat < ava.toFloat
            then (⟨a.base, a.left, a.right ++ exta, rema2, a.sign⟩ : BasedReal).sign
            else (⟨bb.base, bb.left, bb.right ++ extb, remb2, bb.sign⟩ : BasedReal).sign) < 0
          then -bb.sign else bb.sign⟩ := by
    rw [hsg_swap]
    exact h6L
  have h6S : (if (if ava.toFloat < avb.toFloat
        then (⟨bb.base, bb.left, bb.right ++ extb, remb2, bb.sign⟩ : BasedReal).sign
        else (⟨a.base, a.left, a.right ++ exta, rema2, a.sign⟩ : BasedReal).sign) < 0
      then pyNeg ⟨a.base, a.left, a.right ++ exta, rema2, a.sign⟩
      else Except.ok ⟨a.base, a.left, a.right ++ exta, rema2, a.sign⟩)
      = Except.ok ⟨a.base, a.left, a.right ++ exta, rema2,
          if (if avb.toFloat < ava.toFloat
            then (⟨a.base, a.left, a.right ++ exta, rema2, a.sign⟩ : BasedReal).sign
            else (⟨bb.base, bb.left, bb.right ++ extb, remb2, bb.sign⟩ : BasedReal).sign) < 0
          then -a.sign else a.sign⟩ := by
    rw [hsg_swap]
    exact h5L
  have hres_b' : bb.resize ((max bb.right.length a.right.length : Nat) : Int)
      = Except.ok ⟨bb.base, bb.left, bb.right ++ extb, remb2, bb.sign⟩ := by
    rw [Nat.max_comm bb.right.length a.right.length]
    exact hres_b
  have hres_a' : a.resize ((max bb.right.length a.right.length : Nat) : Int)
      = Except.ok ⟨a.base, a.left, a.right ++ exta, rema2, a.sign⟩ := by
    rw [Nat.max_comm bb.right.length a.right.length]
    exact hres_a
  have hL := addSame_eval hres_a hres_b hava havb h5L h6L
  have hR := addSame_eval hres_b' hres_a' havb hava h5S h6S
  rw [hsg_swap, Nat.max_comm bb.right.length a.right.length,
    Nat.max_comm bb.left.length a.left.length, ← hbase] at hR
  rw [hL, hR]
  apply addTail_comm hba
  · show (if (if avb.toFloat < ava.toFloat
        then (⟨a.base, a.left, a.right ++ exta, rema2, a.sign⟩ : BasedReal).sign
        else (⟨bb.base, bb.left, bb.right ++ extb, remb2, bb.sign⟩ : BasedReal).sign) < 0
      then -a.sign else a.sign) = 1 ∨ _ = -1
    rcases hsga with h | h <;> rw [h] <;> split_ifs <;> norm_num
  · show (if (if avb.toFloat < ava.toFloat
        then (⟨a.base, a.left, a.right ++ exta, rema2, a.sign⟩ : BasedReal).sign
        else (⟨bb.base, bb.left, bb.right ++ extb, remb2, bb.sign⟩ : BasedReal).sign) < 0
      then -bb.sign else bb.sign) = 1 ∨ _ = -1
    rcases hsgb with h | h <;> rw [h] <;> split_ifs <;> norm_num
  · exact hlaOK
  · exact hrOKA
  · show leftOK a.base 0 bb.left.reverse
    rw [hbase]
    exact hlbOK
  · show rightOK a.base 0 (bb.right ++ extb)
    rw [hbase]
    exact hrOKB
  · show (a.right ++ exta).length = max a.right.length bb.right.length
    rw [List.length_append]
    exact hlena
  · show (bb.right ++ extb).length = max a.right.length bb.right.length
    rw [List.length_append]
    exact hlenb
  · exact hrema0
  · exact hrema1
  · exact hremb0
  · exact hremb1

/-- Adding the zero of matching precision to a well-formed value returns the
value itself, provided the value is positive or has nonzero float (on a
negative zero-magnitude operand the code flips the sign). -/
theorem add_zero_wf {a z r : BasedReal} (hwa : WF a)
    (hsg0 : a.sign = 1 ∨ a.toFloat ≠ 0)
    (hz : zeroBR a.base a.right.length = Except.ok z)
    (hr : a.add z = Except.ok r) : r = a := by
  have hca := hwa
  obtain ⟨hba, hsga, hra0, hra1, hlaOK, hraOK, hta, hnea, hcka⟩ := hca
  have hla : 0 < a.left.length := List.length_pos.mpr hnea
  rw [zeroBR_spec hba a.right.length] at hz
  have hzeq : z = ⟨a.base, [0], List.replicate a.right.length 0, 0, 1⟩ :=
    (Except.ok.inj hz).symm
  subst hzeq
  have hadd : a.add ⟨a.base, [0], List.replicate a.right.length 0, 0, 1⟩
      = addSame a ⟨a.base, [0], List.replicate a.right.length 0, 0, 1⟩ := by
    unfold BasedReal.add
    rw [if_pos rfl]
  rw [hadd] at hr
  have h1 : a.resize ((max a.right.length
        (⟨a.base, [0], List.replicate a.right.length 0, 0, 1⟩ : BasedReal).right.length
        : Nat) : Int) = Except.ok a := by
    show a.resize ((max a.right.length
        (List.replicate a.right.length (0 : Int)).length : Nat) : Int) = Except.ok a
    rw [show max a.right.length (List.replicate a.right.length (0 : Int)).length
        = a.right.length by simp]
    exact resize_self a
  have h2 : BasedReal.resize ⟨a.base, [0], List.replicate a.right.length 0, 0, 1⟩
      ((max a.right.length
        (⟨a.base, [0], List.replicate a.right.length 0, 0, 1⟩ : BasedReal).right.length
        : Nat) : Int)
      = Except.ok ⟨a.base, [0], List.replicate a.right.length 0, 0, 1⟩ := by
    show BasedReal.resize ⟨a.base, [0], List.replicate a.right.length 0, 0, 1⟩
        ((max a.right.length (List.replicate a.right.length (0 : Int)).length : Nat) : Int)
      = Except.ok ⟨a.base, [0], List.replicate a.right.length 0, 0, 1⟩
    rw [show max a.right.length (List.replicate a.right.length (0 : Int)).length
        = a.right.length by simp]
    unfold BasedReal.resize
    rw [if_pos (show ((a.right.length : Nat) : Int)
        = ((List.replicate a.right.length (0 : Int)).length : Int) by
      rw [List.length_replicate])]
  obtain ⟨ava, hava, havaF⟩ := pyAbs_run a hba hsga hcka hta hnea hlaOK hraOK hra0
  have h4 : pyAbs ⟨a.base, [0], List.replicate a.right.length 0, 0, 1⟩
      = Except.ok ⟨a.base, [0], List.replicate a.right.length 0, 0, 1⟩ := by
    unfold pyAbs
    rw [if_pos (show (0 : Int) ≤ 1 by norm_num)]
  have hlitF : BasedReal.toFloat ⟨a.base, [0], List.replicate a.right.length 0, 0, 1⟩
      = 0 := by
    show (intVal a.base 1 0 ([0] : List Int).reverse
        + fracVal a.base 1 0 (List.replicate a.right.length 0)
        + weightFrac a.base (List.replicate a.right.length (0 : Int)).length * 0)
        * ((1 : Int) : Rat) = 0
    rw [fracVal_replicate_zero]
    simp [intVal]
  have hSG : (if BasedReal.toFloat ⟨a.base, [0], List.replicate a.right.length 0, 0, 1⟩
        < ava.toFloat then a.sign
      else (⟨a.base, [0], List.replicate a.right.length 0, 0, 1⟩ : BasedReal).sign)
      = a.sign := by
    show (if BasedReal.toFloat ⟨a.base, [0], List.replicate a.right.length 0, 0, 1⟩
        < ava.toFloat then a.sign else (1 : Int)) = a.sign
    rw [hlitF, havaF]
    rcases hsg0 with h | h
    · split_ifs with hc
      · rfl
      · exact h.symm
    · rw [if_pos (abs_pos.mpr h)]
  have h5 : (if (if BasedReal.toFloat ⟨a.base, [0], List.replicate a.right.length 0, 0, 1⟩
        < ava.toFloat then a.sign
        else (⟨a.base, [0], List.replicate a.right.length 0, 0, 1⟩ : BasedReal).sign) < 0
      then pyNeg a else Except.ok a)
      = Except.ok ⟨a.base, a.left, a.right, a.remainder, 1⟩ := by
    rw [hSG]
    rcases hsga with h | h
    · rw [if_neg (show ¬ a.sign < 0 by rw [h]; norm_num)]
      exact congrArg Except.ok (by rw [← h])
    · rw [if_pos (show a.sign < 0 by rw [h]; norm_num)]
      rw [pyNeg_spec (Or.inr h) hcka hta hnea]
      rw [h]
      norm_num
  have hchkZ : checkRange ⟨a.base, [0], List.replicate a.right.length 0, 0, 1⟩
      = Except.ok () := by
    unfold checkRange
    rw [if_neg (not_not_intro (Or.inr rfl))]
    rw [show ([0] : List Int).reverse = List.replicate 1 0 from rfl]
    rw [chkRev_zeros a.base 1 0]
    simp only [Bind.bind, Except.bind]
    exact chkFwd_zeros a.base 1 0
  have h6 := signedRun ⟨a.base, [0], List.replicate a.right.length 0, 0, 1⟩
    (Or.inl rfl) hchkZ (Or.inr rfl) (by simp)
    (if BasedReal.toFloat ⟨a.base, [0], List.replicate a.right.length 0, 0, 1⟩
        < ava.toFloat then a.sign
      else (⟨a.base, [0], List.replicate a.right.length 0, 0, 1⟩ : BasedReal).sign)
  rw [addSame_eval h1 h2 hava h4 h5 h6] at hr
  rw [hSG] at hr
  dsimp only at hr
  rw [show a.right.length ⊔ (List.replicate a.right.length (0 : Int)).length
      = a.right.length by simp] at hr
  rw [show a.left.length ⊔ ([0] : List Int).length = a.left.length by
    rw [List.length_singleton]; omega] at hr
  have hAT : addTail a.base a.right.length a.left.length a.sign
      ⟨a.base, a.left, a.right, a.remainder, 1⟩
      ⟨a.base, [0], List.replicate a.right.length 0, 0,
        if a.sign < 0 then (-1 : Int) else 1⟩
      = newBR a.base (0 :: a.left) a.right a.remainder a.sign := by
    have h := addTail_zero hba ⟨a.base, a.left, a.right, a.remainder, 1⟩
      (if a.sign < 0 then (-1 : Int) else 1) a.sign rfl hlaOK hraOK hra0 hra1 hnea
    exact h
  rw [hAT] at hr
  have hrr := newBR_ok_left hr
  have hlz : leadZeros ((0 : Int) :: a.left) = leadZeros a.left + 1 := by
    simp [leadZeros]
  rcases hta with h0 | h0
  · rw [hlz, h0] at hrr
    simp only [Nat.zero_add, List.drop_succ_cons, List.drop_zero] at hrr
    rw [if_neg (by simpa using hnea)] at hrr
    exact hrr
  · rw [hlz, h0] at hrr
    simp [leadZeros] at hrr
    rw [hrr, ← h0]

/-- Adding a well-formed value to its own negation succeeds and produces a
value of float zero (an all-zero digit array carrying the negation's sign). -/
theorem add_neg_wf {a na : BasedReal} (hwa : WF a)
    (hna : pyNeg a = Except.ok na) :
    ∃ rr, a.add na = Except.ok rr ∧ rr.toFloat = 0 := by
  have hca := hwa
  obtain ⟨hba, hsga, hra0, hra1, hlaOK, hraOK, hta, hnea, hcka⟩ := hca
  rw [pyNeg_spec hsga hcka hta hnea] at hna
  have hnaeq : na = ⟨a.base, a.left, a.right, a.remainder, -a.sign⟩ :=
    (Except.ok.inj hna).symm
  subst hnaeq
  have hadd : a.add ⟨a.base, a.left, a.right, a.remainder, -a.sign⟩
      = addSame a ⟨a.base, a.left, a.right, a.remainder, -a.sign⟩ := by
    unfold BasedReal.add
    rw [if_pos rfl]
  rw [hadd]
  have h1 : a.resize ((max a.right.length
        (⟨a.base, a.left, a.right, a.remainder, -a.sign⟩ : BasedReal).right.length
        : Nat) : Int) = Except.ok a := by
    show a.resize ((max a.right.length a.right.length : Nat) : Int) = Except.ok a
    rw [Nat.max_self]
    exact resize_self a
  have h2 : BasedReal.resize ⟨a.base, a.left, a.right, a.remainder, -a.sign⟩
      ((max a.right.length
        (⟨a.base, a.left, a.right, a.remainder, -a.sign⟩ : BasedReal).right.length
        : Nat) : Int)
      = Except.ok ⟨a.base, a.left, a.right, a.remainder, -a.sign⟩ := by
    show BasedReal.resize ⟨a.base, a.left, a.right, a.remainder, -a.sign⟩
        ((max a.right.length a.right.length : Nat) : Int)
      = Except.ok ⟨a.base, a.left, a.right, a.remainder, -a.sign⟩
    rw [Nat.max_self]
    exact resize_self ⟨a.base, a.left, a.right, a.remainder, -a.sign⟩
  obtain ⟨ava, hava, havaF⟩ := pyAbs_run a hba hsga hcka hta hnea hlaOK hraOK hra0
  have hsgn : (⟨a.base, a.left, a.right, a.remainder, -a.sign⟩ : BasedReal).sign = 1
      ∨ (⟨a.base, a.left, a.right, a.remainder, -a.sign⟩ : BasedReal).sign = -1 := by
    show -a.sign = 1 ∨ -a.sign = -1
    rcases hsga with h | h <;> simp [h]
  have hchkN : checkRange ⟨a.base, a.left, a.right, a.remainder, -a.sign⟩
      = Except.ok () := checkRange_sign_flip hsga hcka
  obtain ⟨avb, havb, havbF⟩ := pyAbs_run
    ⟨a.base, a.left, a.right, a.remainder, -a.sign⟩
    hba hsgn hchkN hta hnea hlaOK hraOK hra0
  have hflitF : BasedReal.toFloat ⟨a.base, a.left, a.right, a.remainder, -a.sign⟩
      = -a.toFloat := toFloat_sign_flip a.base a.left a.right a.remainder a.sign
  rw [hflitF, abs_neg] at havbF
  have hSG : (if avb.toFloat < ava.toFloat then a.sign
      else (⟨a.base, a.left, a.right, a.remainder, -a.sign⟩ : BasedReal).sign)
      = -a.sign := by
    show (if avb.toFloat < ava.toFloat then a.sign else -a.sign) = -a.sign
    rw [havaF, havbF, if_neg (lt_irrefl _)]
  have h5 := signedRun a hsga hcka hta hnea
    (if avb.toFloat < ava.toFloat then a.sign
      else (⟨a.base, a.left, a.right, a.remainder, -a.sign⟩ : BasedReal).sign)
  have h6 := signedRun ⟨a.base, a.left, a.right, a.remainder, -a.sign⟩
    hsgn hchkN hta hnea
    (if avb.toFloat < ava.toFloat then a.sign
      else (⟨a.base, a.left, a.right, a.remainder, -a.sign⟩ : BasedReal).sign)
  rw [addSame_eval h1 h2 hava havb h5 h6]
  rw [hSG]
  dsimp only
  rw [Nat.max_self a.right.length, Nat.max_self a.left.length]
  rcases hsga with h | h
  · simp only [h]
    norm_num
    rw [addTail_negself hba a.left a.right a.remainder (-1) hlaOK hraOK hra0 hra1 hnea]
    rw [newBR_zeros a.base a.left.length (List.replicate a.right.length 0) 0 (-1)
      (Or.inr rfl)]
    refine ⟨_, rfl, ?_⟩
    show (intVal a.base 1 0 ([0] : List Int).reverse
        + fracVal a.base 1 0 (List.replicate a.right.length 0)
        + weightFrac a.base (List.replicate a.right.length (0 : Int)).length * 0)
        * ((-1 : Int) : Rat) = 0
    rw [fracVal_replicate_zero]
    simp [intVal]
  · simp only [h]
    norm_num
    rw [addTail_negself hba a.left a.right a.remainder 1 hlaOK hraOK hra0 hra1 hnea]
    rw [newBR_zeros a.base a.left.length (List.replicate a.right.length 0) 0 1
      (Or.inl rfl)]
    refine ⟨_, rfl, ?_⟩
    show (intVal a.base 1 0 ([0] : List Int).reverse
        + fracVal a.base 1 0 (List.replicate a.right.length 0)
        + weightFrac a.base (List.replicate a.right.length (0 : Int)).length * 0)
        * ((1 : Int) : Rat) = 0
    rw [fracVal_replicate_zero]
    simp [intVal]

/-! ## Claim theorems -/

/-- C1: for sexagesimal values, multiplying the value parsed from
`"01, 12; 04, 17"` by the value parsed from `"7; 45, 55"` yields the value
whose canonical rendering is `"09,19 ; 39,15,40,35"` (mixed-radix Cauchy
product with per-position carries, shift by `2R`, and cross-remainder
correction). -/
theorem c1_mul_parsed_sexagesimal :
    (do
      let a ← fromString sexagesimal "01, 12; 04, 17"
      let b ← fromString sexagesimal "7; 45, 55"
      let r ← BasedReal.mul a b
      pyRepr r) = Except.ok "09,19 ; 39,15,40,35" := by decide

/-- C2: for sexagesimal values, adding the value parsed from
`"01, 21; 47, 25"` and the value parsed from `"45; 32, 14, 22"` yields the
value whose canonical rendering is `"02,07 ; 19,39,22"` (operands resized to
the larger significance, digits summed least significant first with
per-position mixed-radix carry/borrow). -/
theorem c2_add_parsed_sexagesimal :
    (do
      let a ← fromString sexagesimal "01, 21; 47, 25"
      let b ← fromString sexagesimal "45; 32, 14, 22"
      let r ← BasedReal.add a b
      pyRepr r) = Except.ok "02,07 ; 19,39,22" := by decide

/-- C3: the division algorithm cannot run at all — after the type guard its
prologue assigns `num_nv.sign = 1`, and `sign` is a setter-less `@property`
on a `__slots__` class, so every same-base `division(a, b, s)` raises
`AttributeError` (the quotient loop, and the unimplemented `euclidian_div`
inside it, are never reached) instead of producing the approximate quotient
whose product with `b` the claim is about.  Shown universally and at the
failing input `division(1;, 2;, 1)`. -/
theorem c3_division_raises_attributeError :
    (∀ (a other : BasedReal) (s : Nat), a.base = other.base →
      a.division other s = Except.error PyErr.attributeError)
    ∧ (do
      let a ← fromString sexagesimal "01;"
      let b ← fromString sexagesimal "02;"
      a.division b 1) = Except.error PyErr.attributeError := by
  refine ⟨fun a other s h => ?_, by decide⟩
  unfold BasedReal.division
  rw [if_neg (not_not_intro h)]

/-- C3 (witness): the universal half of the theorem applied at the concrete
same-base pair `01;` and `02;`. -/
theorem c3_division_witness :
    BasedReal.division ⟨sexagesimal, [1], [], 0, 1⟩ ⟨sexagesimal, [2], [], 0, 1⟩ 1
      = Except.error PyErr.attributeError :=
  c3_division_raises_attributeError.1 ⟨sexagesimal, [1], [], 0, 1⟩
    ⟨sexagesimal, [2], [], 0, 1⟩ 1 rfl

/-- C4: construction does not enforce the digit invariant.  The fractional
digit 61 at sexagesimal fractional position 1 (radix 60) is accepted — the
range check never inspects the fractional digits — and the integer digit 60,
equal to its position's radix, is accepted as well because the check uses a
strict `>` comparison.  The claim (and spec section 8, invariant 8) says both
constructions must fail with `InvalidRadix`. -/
theorem c4_out_of_range_digits_accepted :
    newBR sexagesimal [0] [61] 0 1 = Except.ok ⟨sexagesimal, [0], [61], 0, 1⟩
      ∧ newBR sexagesimal [60] [] 0 1
        = Except.ok ⟨sexagesimal, [60], [], 0, 1⟩ := by decide

/-- C5: `RadixBase.__init__` performs no validation whatsoever: registering a
base whose integer radix is 1 succeeds and the base (radix 1 included) is
stored, while the claim — and the repository's own test
`kanon/units/tests/test_radixbase.py` — expects registration to fail. -/
theorem c5_radix_below_two_accepted :
    radixBaseInit [1] [2] "Sexagesimal" none
      = Except.ok ⟨[1], [2], "Sexagesimal", [","]⟩ := by decide

/-- C6 (counterexample): addition is not commutative for equal-magnitude
operands of opposite signs.  With `a` parsed from `"01;00"` and `b = -a`,
both `a + b` and `b + a` have all-zero digits, but each carries the sign of
its second operand, so Python's `==` (structural at equal precision) reports
them different. -/
theorem c6_add_comm_counterexample :
    (do
      let a ← fromString sexagesimal "01;00"
      let b ← pyNeg a
      let r1 ← a.add b
      let r2 ← b.add a
      Except.ok (pyEqB r1 r2)) = Except.ok false := by decide

/-- C6 (amended): for well-formed same-base operands, `__add__` commutes
whenever the signs agree or the magnitudes differ (on a magnitude tie with
opposite signs the result takes the second operand's sign, as the
counterexample shows); adding the zero of matching precision returns the
value itself for every value that is positive or has nonzero float; and
`a + (-a)` succeeds with float value zero. -/
theorem c6_add_comm_amended :
    (∀ a bb : BasedReal, WF a → WF bb → a.base = bb.base →
      (a.sign = bb.sign ∨ |a.toFloat| ≠ |bb.toFloat|) → a.add bb = bb.add a)
    ∧ (∀ a z r : BasedReal, WF a → (a.sign = 1 ∨ a.toFloat ≠ 0) →
      zeroBR a.base a.right.length = Except.ok z → a.add z = Except.ok r → r = a)
    ∧ (∀ a na : BasedReal, WF a → pyNeg a = Except.ok na →
      ∃ rr, a.add na = Except.ok rr ∧ rr.toFloat = 0) :=
  ⟨fun _ _ hwa hwb hb hg => add_comm_wf hwa hwb hb hg,
   fun _ _ _ hwa hs hz hr => add_zero_wf hwa hs hz hr,
   fun _ _ hwa hna => add_neg_wf hwa hna⟩

/-- C6 (witness): the amended theorem applied to concrete sexagesimal values
`01;02` and `02;03` (commutativity), `01;02 + 0;0 = 01;02` (zero identity)
and `01;02 + (-01;02)` (float-zero sum). -/
theorem c6_add_comm_amended_witness :
    BasedReal.add ⟨sexagesimal, [1], [2], 0, 1⟩ ⟨sexagesimal, [2], [3], 0, 1⟩
        = BasedReal.add ⟨sexagesimal, [2], [3], 0, 1⟩ ⟨sexagesimal, [1], [2], 0, 1⟩
    ∧ (⟨sexagesimal, [1], [2], 0, 1⟩ : BasedReal) = ⟨sexagesimal, [1], [2], 0, 1⟩
    ∧ ∃ rr, BasedReal.add ⟨sexagesimal, [1], [2], 0, 1⟩
        ⟨sexagesimal, [1], [2], 0, -1⟩ = Except.ok rr ∧ rr.toFloat = 0 :=
  ⟨c6_add_comm_amended.1 ⟨sexagesimal, [1], [2], 0, 1⟩ ⟨sexagesimal, [2], [3], 0, 1⟩
      (by decide) (by decide) rfl (Or.inl rfl),
   c6_add_comm_amended.2.1 ⟨sexagesimal, [1], [2], 0, 1⟩ ⟨sexagesimal, [0], [0], 0, 1⟩
      ⟨sexagesimal, [1], [2], 0, 1⟩ (by decide) (Or.inl rfl) (by decide) (by decide),
   c6_add_comm_amended.2.2 ⟨sexagesimal, [1], [2], 0, 1⟩ ⟨sexagesimal, [1], [2], 0, -1⟩
      (by decide) (by decide)⟩

/-- C7 (amended): only `division` rejects a foreign base with `TypeMismatch`;
addition (and hence subtraction) silently converts the other operand through
`from_float(float(other), len(self.right))` instead of failing, as the two
concrete cross-base evaluations (sexagesimal `01;30` with decimal `0.5`)
show. -/
theorem c7_division_rejects_add_converts :
    (∀ (a b : BasedReal) (s : Nat), ¬ (a.base = b.base) →
      a.division b s = Except.error PyErr.typeMismatch)
    ∧ (do
        let a ← fromString sexagesimal "01;30"
        let d ← fromFloat decimal ((1 : Rat) / 2) 1
        a.add d) = Except.ok ⟨sexagesimal, [2], [0], 0, 1⟩
    ∧ (do
        let a ← fromString sexagesimal "01;30"
        let d ← fromFloat decimal ((1 : Rat) / 2) 1
        a.sub d) = Except.ok ⟨sexagesimal, [1], [0], 0, 1⟩ := by
  refine ⟨fun a b s h => ?_, by decide, by decide⟩
  unfold BasedReal.division
  rw [if_pos h]

/-- C7 (counterexample to the claim as stated): adding a sexagesimal value
and a decimal value does not fail `TypeMismatch` — it succeeds, silently
converting the decimal operand. -/
theorem c7_cross_base_add_succeeds :
    (do
      let a ← fromString sexagesimal "01;30"
      let d ← fromFloat decimal ((1 : Rat) / 2) 1
      a.add d) = Except.ok ⟨sexagesimal, [2], [0], 0, 1⟩ := by decide

/-- C7 (witness): the division half of the amended claim applied at a
concrete sexagesimal/decimal pair. -/
theorem c7_witness :
    BasedReal.division ⟨sexagesimal, [1], [30], 0, 1⟩ ⟨decimal, [0], [5], 0, 1⟩ 2
      = Except.error PyErr.typeMismatch :=
  c7_division_rejects_add_converts.1 ⟨sexagesimal, [1], [30], 0, 1⟩
    ⟨decimal, [0], [5], 0, 1⟩ 2 (by decide)

/-- C8: rounding the sexagesimal value parsed from
`"02, 02; 07, 23, 55, 11, 51, 21, 36"` to 4 fractional positions resizes
(remainder 0.856 ≥ 0.5), adds one unit at position 4 away from zero with the
carry propagating through the radices, truncates, and renders
`"02,02 ; 07,23,55,12"`. -/
theorem c8_round_parsed_sexagesimal :
    (do
      let v ← fromString sexagesimal "02, 02; 07, 23, 55, 11, 51, 21, 36"
      let r ← BasedReal.round v (some 4)
      pyRepr r) = Except.ok "02,02 ; 07,23,55,12" := by decide

/-- C9 (counterexample): `truncate` does not clear the remainder when `n`
exceeds the current significance — `from_float(1.5, 0)` has remainder `1/2`,
and truncating it to 1 fractional position returns it unchanged, remainder
included, where the claim demands a result with remainder 0. -/
theorem c9_truncate_keeps_remainder :
    (do
      let v ← fromFloat sexagesimal ((3 : Rat) / 2) 0
      v.truncate 1) = Except.ok ⟨sexagesimal, [1], [], (1 : Rat) / 2, 1⟩
    ∧ ((1 : Rat) / 2) ≠ 0 := by decide

/-- C9 (amended): for a constructed value (range check passed, integer part
trimmed or the single digit `[0]`, and nonempty), `truncate n` with
`n ≤ significant` returns the first `n` fractional digits with the remainder
cleared and sign and integer digits unchanged; with `n > significant` it
returns the value itself, digits unchanged but the remainder retained rather
than cleared. -/
theorem c9_truncate_amended (v : BasedReal) (n : Nat)
    (hchk : checkRange v = Except.ok ())
    (htrim : leadZeros v.left = 0 ∨ v.left = [0])
    (hne : v.left ≠ []) :
    (n ≤ v.right.length →
      v.truncate n = Except.ok ⟨v.base, v.left, v.right.take n, 0, v.sign⟩)
    ∧ (v.right.length < n → v.truncate n = Except.ok v) := by
  constructor
  · intro hle
    unfold BasedReal.truncate
    rw [if_neg (by exact_mod_cast Nat.not_lt.mpr hle)]
    have hpt : pyTake v.right (n : Int) = v.right.take n := by
      unfold pyTake
      rw [if_pos (by positivity), Int.toNat_natCast]
    rw [hpt]
    unfold newBR
    have hc : checkRange ⟨v.base, v.left, v.right.take n, 0, v.sign⟩
        = Except.ok () := by
      rw [checkRange_congr v.base v.left (v.right.take n) v.right 0 v.remainder v.sign]
      exact hchk
    rw [hc]
    simp only [Bind.bind, Except.bind]
    rcases htrim with h0 | h0
    · rw [if_pos h0]
      simp [List.isEmpty_iff, hne]
    · have hsg : v.sign = -1 ∨ v.sign = 1 := by
        by_contra hns
        unfold checkRange at hchk
        rw [if_pos hns] at hchk
        simp at hchk
      rw [h0]
      rw [if_neg (show ¬ leadZeros ([0] : List Int) = 0 by decide)]
      rw [show ([0] : List Int).drop (leadZeros [0]) = [] from rfl]
      rw [checkRange_emptyLeft v.base (v.right.take n) 0 v.sign hsg.symm]
      simp only [Bind.bind, Except.bind]
      rfl
  · intro hlt
    unfold BasedReal.truncate
    rw [if_pos (by exact_mod_cast hlt)]

/-- C9 (witness): the amended truncate behaviour at the concrete value
`02;07,23` for `n = 1` and `n = 5`, and at the sub-unit value `00;30,23`
(integer part `[0]`) for `n = 1`. -/
theorem c9_witness :
    BasedReal.truncate ⟨sexagesimal, [2], [7, 23], 0, 1⟩ 1
        = Except.ok ⟨sexagesimal, [2], [7], 0, 1⟩
    ∧ BasedReal.truncate ⟨sexagesimal, [2], [7, 23], 0, 1⟩ 5
        = Except.ok ⟨sexagesimal, [2], [7, 23], 0, 1⟩
    ∧ BasedReal.truncate ⟨sexagesimal, [0], [30, 23], 0, 1⟩ 1
        = Except.ok ⟨sexagesimal, [0], [30], 0, 1⟩ := by
  have h := c9_truncate_amended ⟨sexagesimal, [2], [7, 23], 0, 1⟩ 1
    (by decide) (by decide) (by decide)
  have h5 := c9_truncate_amended ⟨sexagesimal, [2], [7, 23], 0, 1⟩ 5
    (by decide) (by decide) (by decide)
  have h0 := c9_truncate_amended ⟨sexagesimal, [0], [30, 23], 0, 1⟩ 1
    (by decide) (Or.inr rfl) (by decide)
  exact ⟨h.1 (by decide), h5.2 (by decide), h0.1 (by decide)⟩

/-- C10: `shift` hands its remainder and sign fields unchanged to the
constructor, and the constructor passes them through on success, so whenever
`shift i` (nonzero `i`) returns a value, that value's sign and remainder equal
the original's, even though the fractional unit in which the remainder is
expressed has moved. -/
theorem c10_shift_preserves_sign_remainder (v : BasedReal) (i : Int)
    (hi : i ≠ 0) (r : BasedReal) (h : v.shift i = Except.ok r) :
    r.sign = v.sign ∧ r.remainder = v.remainder := by
  unfold BasedReal.shift at h
  rw [if_neg hi] at h
  obtain ⟨l2, rfl⟩ := newBR_ok_shape h
  exact ⟨rfl, rfl⟩

/-- C10 (witness): shifting `-(01;02 + remainder 1/4)` by one integer
position preserves sign and remainder. -/
theorem c10_witness :
    ((-1 : Int) ≠ 0)
    ∧ ((⟨sexagesimal, [1, 2], [0], (1 : Rat) / 4, -1⟩ : BasedReal).sign
          = (⟨sexagesimal, [1], [2], (1 : Rat) / 4, -1⟩ : BasedReal).sign
        ∧ (⟨sexagesimal, [1, 2], [0], (1 : Rat) / 4, -1⟩ : BasedReal).remainder
          = (⟨sexagesimal, [1], [2], (1 : Rat) / 4, -1⟩ : BasedReal).remainder) :=
  ⟨by decide,
    c10_shift_preserves_sign_remainder ⟨sexagesimal, [1], [2], (1 : Rat) / 4, -1⟩
      (-1) (by decide) ⟨sexagesimal, [1, 2], [0], (1 : Rat) / 4, -1⟩ (by decide)⟩

end Kanon

